import Mathlib

/-!
Verification of libpolyhedra against its natural-language specification.

Shallow embedding conventions:
* C `float` arithmetic is modelled over `ℝ` (exact real arithmetic); where a
  code path performs only exact operations (copies, comparisons of stored
  values, integer bookkeeping) the model uses `ℚ`/`Nat`/`Int` so theorems can
  be decided by evaluation.
* Fallible C functions (returning `NULL` / `UINT_MAX` / `-1`) are modelled
  with `Option`; out-of-memory failures are not modelled (allocation always
  succeeds in the model).
* Byte-wise hash tables keyed by vertex records are modelled by their map
  semantics: lookup finds the first previously inserted record with an equal
  key.  With a whole-record hash (SipHash) equal keys always land in the same
  bucket and `memcmp` decides equality, so this is exact.
-/

namespace LibPolyhedra

open scoped Classical

/-! ### Vertex lists (`src/unnamed/part_008`, `lp_vertex_list`)

A vertex record is `floats_per_vert` floats compared byte-wise
(`memcmp` in `VlCmp` / `FixedCmp`).  Byte-equality of the stored 32-bit words
is modelled as equality of a decidable record type: `Vert := List Int`
(one `Int` per stored word).  The model keeps the two growable arrays
`vert` and `ind` as lists; `vert_used = verts.length`, `ind_used = ind.length`.
-/

/-- A vertex record, identified with the byte image of its
`floats_per_vert * sizeof(float)` bytes. -/
abbrev Vert : Type := List Int

/-- Model of `struct lp_vertex_list`: the vertex array and the index array.
The dedup hash `vert_hash` maps the byte key of each stored vertex to its
index + 1; it is recovered from `verts` (first match wins, as in `Find`). -/
structure VertexList where
  verts : List Vert
  ind : List Nat
deriving DecidableEq

/-- `LP_VertexList_NumVert`: returns `vert_used`. -/
def NumVert (vl : VertexList) : Nat := vl.verts.length

/-- `LP_VertexList_NumInd`: returns `ind_used`. -/
def NumInd (vl : VertexList) : Nat := vl.ind.length

/-- Position of the first stored record byte-equal to `v` (`Find` in
`src/lib/hash.c` walking the bucket chain); equals the list length when no
such record exists. -/
def hashFindIdx (v : Vert) : List Vert → Nat
  | [] => 0
  | a :: l => if a = v then 0 else hashFindIdx v l + 1

/-- `AddVert` (via `Hash_Insert` in `src/lib/hash.c` with the `VlHash` /
`VlCmp` / `VlCopy` callbacks): if a byte-identical vertex is already stored,
`Find` locates its element and `Hash_Insert` hands back the stored key
(index + 1) unchanged; otherwise `VlCopy` appends the record to `vert` and
returns the fresh index + 1.  `AddVert` subtracts the 1. -/
def AddVert (vl : VertexList) (v : Vert) : Nat × VertexList :=
  if v ∈ vl.verts then (hashFindIdx v vl.verts, vl)
  else (vl.verts.length, { vl with verts := vl.verts ++ [v] })

lemma hashFindIdx_le_length (v : Vert) (l : List Vert) : hashFindIdx v l ≤ l.length := by
  induction l with
  | nil => simp [hashFindIdx]
  | cons a l ih =>
    by_cases hav : a = v
    · simp [hashFindIdx, hav]
    · simp only [hashFindIdx, if_neg hav, List.length_cons]
      omega

lemma hashFindIdx_lt_length {v : Vert} {l : List Vert} (h : v ∈ l) :
    hashFindIdx v l < l.length := by
  induction l with
  | nil => simp at h
  | cons a l ih =>
    by_cases hav : a = v
    · simp [hashFindIdx, hav]
    · have : v ∈ l := by
        rcases List.mem_cons.mp h with h' | h'
        · exact absurd h'.symm hav
        · exact h'
      have := ih this
      simp only [hashFindIdx, if_neg hav, List.length_cons]
      omega

lemma getD_hashFindIdx {v : Vert} {l : List Vert} (h : v ∈ l) :
    l.getD (hashFindIdx v l) [] = v := by
  induction l with
  | nil => simp at h
  | cons a l ih =>
    by_cases hav : a = v
    · simp [hashFindIdx, hav]
    · have : v ∈ l := by
        rcases List.mem_cons.mp h with h' | h'
        · exact absurd h'.symm hav
        · exact h'
      simp only [hashFindIdx, if_neg hav, List.getD_cons_succ]
      exact ih this

lemma hashFindIdx_append_of_not_mem {v : Vert} {l₁ : List Vert} (h : v ∉ l₁)
    (l₂ : List Vert) : hashFindIdx v (l₁ ++ l₂) = l₁.length + hashFindIdx v l₂ := by
  induction l₁ with
  | nil => simp
  | cons a l ih =>
    have hav : a ≠ v := fun he => h (by simp [he])
    have hvl : v ∉ l := fun he => h (by simp [he])
    show (if a = v then 0 else hashFindIdx v (l ++ l₂) + 1) =
      (a :: l).length + hashFindIdx v l₂
    rw [if_neg hav, ih hvl]
    simp only [List.length_cons]
    omega

/-- `AddInd`: appends an index to the `ind` array (growth always succeeds in
the model). -/
def AddInd (vl : VertexList) (i : Nat) : Nat × VertexList :=
  (i, { vl with ind := vl.ind ++ [i] })

/-- `LP_VertexList_AddIndex`: rejects `index > vert_used` (strictly greater:
`vert_used` itself is accepted as a sentinel), otherwise appends via
`AddInd`. -/
def LP_VertexList_AddIndex (vl : VertexList) (i : Nat) : Option (Nat × VertexList) :=
  if i > NumVert vl then none
  else some (AddInd vl i)

/-- `LP_VertexList_Add`: dedup-insert the record, then append the resulting
index to the index array. -/
def LP_VertexList_Add (vl : VertexList) (v : Vert) : Option (Nat × VertexList) :=
  match AddVert vl v with
  | (i, vl') => LP_VertexList_AddIndex vl' i

/-- C1.  `LP_VertexList_Add` always succeeds and returns an index `i` together
with the updated list such that:
* the stored vertex at position `i` is byte-identical to `v`;
* if a byte-identical vertex was already stored, `i` is its (first) index and
  the vertex array is unchanged, otherwise `v` is appended and `i` is its new
  index;
* exactly the one entry `i` is appended to the index array; and
* a second `Add` of a byte-identical vertex returns the same index. -/
theorem vertexList_Add_spec (vl : VertexList) (v : Vert) :
    ∃ i vl', LP_VertexList_Add vl v = some (i, vl') ∧
      vl'.verts.getD i [] = v ∧
      (if v ∈ vl.verts
        then i = hashFindIdx v vl.verts ∧ vl'.verts = vl.verts
        else i = vl.verts.length ∧ vl'.verts = vl.verts ++ [v]) ∧
      vl'.ind = vl.ind ++ [i] ∧
      (∀ j vl'', LP_VertexList_Add vl' v = some (j, vl'') → j = i) := by
  by_cases h : v ∈ vl.verts
  · refine ⟨hashFindIdx v vl.verts, { vl with ind := vl.ind ++ [hashFindIdx v vl.verts] },
      ?_, ?_, ?_, ?_, ?_⟩
    · simp only [LP_VertexList_Add, AddVert, if_pos h, LP_VertexList_AddIndex, NumVert]
      rw [if_neg (Nat.not_lt.mpr (hashFindIdx_le_length v vl.verts))]
      rfl
    · exact getD_hashFindIdx h
    · simp [h]
    · rfl
    · intro j vl'' hj
      simp only [LP_VertexList_Add, AddVert, if_pos h, LP_VertexList_AddIndex, NumVert] at hj
      rw [if_neg (Nat.not_lt.mpr (hashFindIdx_le_length v vl.verts))] at hj
      simpa [AddInd] using congrArg (·.1) (Option.some.inj hj).symm
  · refine ⟨vl.verts.length,
      ⟨vl.verts ++ [v], vl.ind ++ [vl.verts.length]⟩, ?_, ?_, ?_, ?_, ?_⟩
    · simp only [LP_VertexList_Add, AddVert, if_neg h, LP_VertexList_AddIndex, NumVert]
      rw [if_neg (by simp)]
      rfl
    · simp
    · simp [h]
    · rfl
    · intro j vl'' hj
      have hmem : v ∈ vl.verts ++ [v] := by simp
      simp only [LP_VertexList_Add, AddVert, hmem, if_pos, LP_VertexList_AddIndex, NumVert] at hj
      rw [if_neg (Nat.not_lt.mpr (hashFindIdx_le_length v (vl.verts ++ [v])))] at hj
      have hje : j = hashFindIdx v (vl.verts ++ [v]) := by
        simpa [AddInd] using congrArg (·.1) (Option.some.inj hj).symm
      rw [hje, hashFindIdx_append_of_not_mem h]
      simp [hashFindIdx]

/-- C8.  `LP_VertexList_AddIndex` fails exactly on `index > vert_used`; any
`index ≤ vert_used` (including the sentinel `vert_used` itself) is accepted,
returned, and appended to the index array. -/
theorem vertexList_AddIndex_spec (vl : VertexList) (i : Nat) :
    (LP_VertexList_AddIndex vl i = none ↔ i > NumVert vl) ∧
    (i ≤ NumVert vl →
      LP_VertexList_AddIndex vl i = some (i, { vl with ind := vl.ind ++ [i] })) := by
  constructor
  · constructor
    · intro h
      by_contra hle
      simp [LP_VertexList_AddIndex, hle] at h
    · intro h
      simp [LP_VertexList_AddIndex, h]
  · intro h
    simp only [LP_VertexList_AddIndex, if_neg (by omega : ¬ i > NumVert vl)]
    rfl

/-! ### 3-float vectors and the helpers of `util.c` (`src/unnamed/part_009`)

C `float[3]` values and their arithmetic are modelled over `ℝ`.  The helper
names follow `util.c`.
-/

/-- A 3-float vector. -/
structure V3 where
  x : ℝ
  y : ℝ
  z : ℝ

namespace V3

def add (a b : V3) : V3 := ⟨a.x + b.x, a.y + b.y, a.z + b.z⟩
def sub (a b : V3) : V3 := ⟨a.x - b.x, a.y - b.y, a.z - b.z⟩
def smul (c : ℝ) (a : V3) : V3 := ⟨c * a.x, c * a.y, c * a.z⟩
def neg (a : V3) : V3 := ⟨-a.x, -a.y, -a.z⟩

end V3

/-- `Dot`. -/
def Dot (a b : V3) : ℝ := a.x * b.x + a.y * b.y + a.z * b.z

/-- `Norm2`. -/
def Norm2 (v : V3) : ℝ := Dot v v

/-- `Norm`. -/
noncomputable def Norm (v : V3) : ℝ := Real.sqrt (Norm2 v)

/-- `Dist2`. -/
def Dist2 (a b : V3) : ℝ := Norm2 (a.sub b)

/-- `Dist`. -/
noncomputable def Dist (a b : V3) : ℝ := Real.sqrt (Dist2 a b)

/-- `Cross` (no aliasing in the model). -/
def Cross (a b : V3) : V3 :=
  ⟨a.y * b.z - a.z * b.y, a.z * b.x - a.x * b.z, a.x * b.y - a.y * b.x⟩

/-- `Normalize`: scales by `1/Norm(v)`, or by 0 when the norm is zero; returns
the scaled vector (the C function updates in place and returns the norm). -/
noncomputable def Normalize (v : V3) : V3 :=
  let n := Norm v
  let factor := if n = 0 then 0 else 1 / n
  V3.smul factor v

/-- `PlaneNorm`: normalized cross product of `p2-p1` and `p3-p2` (CCW
winding). -/
noncomputable def PlaneNorm (p1 p2 p3 : V3) : V3 :=
  Normalize (Cross (p2.sub p1) (p3.sub p2))

/-! ### C10: `Vef_ConvexInteriorDist` (`src/unnamed/part_002`)

The `vef` mesh is modelled by the data this function reads: the byte keys of
the vertex hash (`vef->verts`), the bounding box (`vef->min`/`vef->max`), and
the faces, each with its cached plane (`norm`, `dist`) and the three adjacent
faces reachable through `Face_Adj` (`none` models a `NULL` second face).
`Hash_GetFirstKey` on a nonempty face table is modelled as face 0.  The
result is `some r` for a returned float `r`; `none` models the `INFINITY` /
`-INFINITY` outcomes of the error paths (including `Queue_Pop` returning
`NULL`) and, in the model only, fuel exhaustion — the concrete fuel
`2 + Σ |adj|` bounds the number of loop iterations, since every pop consumes
a queue entry and every push is guarded by the visited set. -/

/-- One face of a vef as read by `Vef_ConvexInteriorDist`. -/
structure VefFace where
  norm : V3
  dist : ℝ
  adj : List (Option Nat)

/-- The vef data read by `Vef_ConvexInteriorDist`. -/
structure Vef where
  verts : List V3
  boxMin : V3
  boxMax : V3
  faces : List VefFace

/-- The BFS loop of `Vef_ConvexInteriorDist`: pop a face, return early when
it is more than `tol` outside, skip faces that cannot beat the minimum,
otherwise update the minimum and enqueue unvisited neighbors. -/
noncomputable def interiorLoop (vef : Vef) (pt : V3) (tol : ℝ) :
    Nat → List (Option Nat) → List (Option Nat) → Option ℝ → Option ℝ
  | 0, _, _, _ => none
  | fuel + 1, visited, queue, minv =>
    match queue with
    | [] => minv
    | none :: _ => none
    | some f :: rest =>
      let face := vef.faces.getD f ⟨⟨0, 0, 0⟩, 0, []⟩
      let d := face.dist - Dot face.norm pt
      if d < -tol then some d
      else if (match minv with | none => False | some m => d > m + tol) then
        interiorLoop vef pt tol fuel visited rest minv
      else
        let minv' := match minv with
          | none => some d
          | some m => if d < m then some d else some m
        let st := face.adj.foldl
          (fun (s : List (Option Nat) × List (Option Nat)) nb =>
            if nb ∈ s.1 then s else (s.1 ++ [nb], s.2 ++ [nb]))
          (visited, rest)
        interiorLoop vef pt tol fuel st.1 st.2 minv'

/-- Fuel bound for the BFS loop: one initial pop plus at most one pop per
adjacency entry ever enqueued. -/
def interiorFuel (vef : Vef) : Nat :=
  2 + vef.faces.foldr (fun f a => f.adj.length + a) 0

/-- `Vef_ConvexInteriorDist`: the early vertex-hash exit followed by the BFS
over face adjacency. -/
noncomputable def Vef_ConvexInteriorDist (vef : Vef) (pt : V3) (start : Option Nat) :
    Option ℝ :=
  let tol := 1e-6 * Dist vef.boxMax vef.boxMin
  if pt ∈ vef.verts then some 0
  else
    match (match start with
           | some s => some s
           | none => if vef.faces.isEmpty then none else some 0) with
    | none => none
    | some f0 =>
      interiorLoop vef pt tol (interiorFuel vef) [some f0] [some f0] none

/-- C10.  If the query point is byte-identical to a stored vertex of the vef,
`Vef_ConvexInteriorDist` returns exactly 0, and does so without the
face-graph search: the result is the same for any face set and any start
face. -/
theorem vef_convexInteriorDist_vertex (vef : Vef) (pt : V3) (start : Option Nat)
    (h : pt ∈ vef.verts) :
    Vef_ConvexInteriorDist vef pt start = some 0 ∧
    (∀ faces' start',
      Vef_ConvexInteriorDist { vef with faces := faces' } pt start' = some 0) := by
  constructor
  · simp [Vef_ConvexInteriorDist, h]
  · intro faces' start'
    simp [Vef_ConvexInteriorDist, h]

/-- Witness for C10 at a concrete vef: the unit-tetrahedron vertex `(0,0,1)`
reports interior distance 0. -/
theorem vef_convexInteriorDist_vertex_witness :
    (⟨0, 0, 1⟩ : V3) ∈ (Vef.mk [⟨0, 0, 0⟩, ⟨1, 0, 0⟩, ⟨0, 1, 0⟩, ⟨0, 0, 1⟩]
        ⟨0, 0, 0⟩ ⟨1, 1, 1⟩ []).verts ∧
    Vef_ConvexInteriorDist
      (Vef.mk [⟨0, 0, 0⟩, ⟨1, 0, 0⟩, ⟨0, 1, 0⟩, ⟨0, 0, 1⟩] ⟨0, 0, 0⟩ ⟨1, 1, 1⟩ [])
      ⟨0, 0, 1⟩ none = some 0 := by
  have h : (⟨0, 0, 1⟩ : V3) ∈ (Vef.mk [⟨0, 0, 0⟩, ⟨1, 0, 0⟩, ⟨0, 1, 0⟩, ⟨0, 0, 1⟩]
      ⟨0, 0, 0⟩ ⟨1, 1, 1⟩ []).verts := by
    simp
  exact ⟨h, (vef_convexInteriorDist_vertex _ _ none h).1⟩

/-! ### C9: the aggregation BVH (`bvh_vl` in `src/lib/file_obj.c`)

`BvhVl_New` collects the vertex positions into a root node while growing the
root bounding box (both `min` and `max` updated with the per-coordinate index
`count`), then `Split_BNode` recursively median-splits.  When distributing
points to a child, the child's `max` is grown with the comparison
`vert[axis] > nn->max[count]` — the split axis coordinate instead of the
per-coordinate index.  The float values involved are small integers and exact
halves, so the model uses `ℚ` and everything evaluates.

A box is `none` before the first point is added (standing for the
`+INFINITY`/`-INFINITY` initialization, against which the first point always
wins on every coordinate in both bounds).  The C code partitions points and
grows child boxes in one interleaved loop; the model filters first and folds
the same per-child point sequences in the same order. -/

/-- A 3-float point with exactly representable coordinates. -/
abbrev Q3 : Type := ℚ × ℚ × ℚ

/-- `vert[i]` for `i < 3`. -/
def qc (p : Q3) : Nat → ℚ
  | 0 => p.1
  | 1 => p.2.1
  | _ => p.2.2

/-- The root bounding-box update in `BvhVl_New` (correct on both bounds). -/
def rootBoxUpd (st : Option (Q3 × Q3)) (v : Q3) : Option (Q3 × Q3) :=
  match st with
  | none => some (v, v)
  | some (mn, mx) =>
    some ((if v.1 < mn.1 then v.1 else mn.1,
           if v.2.1 < mn.2.1 then v.2.1 else mn.2.1,
           if v.2.2 < mn.2.2 then v.2.2 else mn.2.2),
          (if v.1 > mx.1 then v.1 else mx.1,
           if v.2.1 > mx.2.1 then v.2.1 else mx.2.1,
           if v.2.2 > mx.2.2 then v.2.2 else mx.2.2))

/-- The child bounding-box update in `Split_BNode`: `min` is grown with
`vert[count] < nn->min[count]` but `max` with `vert[axis] > nn->max[count]`. -/
def childBoxUpd (axis : Nat) (st : Option (Q3 × Q3)) (v : Q3) : Option (Q3 × Q3) :=
  match st with
  | none => some (v, v)
  | some (mn, mx) =>
    some ((if v.1 < mn.1 then v.1 else mn.1,
           if v.2.1 < mn.2.1 then v.2.1 else mn.2.1,
           if v.2.2 < mn.2.2 then v.2.2 else mn.2.2),
          (if qc v axis > mx.1 then v.1 else mx.1,
           if qc v axis > mx.2.1 then v.2.1 else mx.2.1,
           if qc v axis > mx.2.2 then v.2.2 else mx.2.2))

/-- `struct bvh_node`: a node either keeps its point array (`leaf`, children
`NULL`) or has been split (`node`, point array freed). -/
inductive BNode where
  | leaf (axis : Nat) (box : Option (Q3 × Q3)) (points : List Q3)
  | node (axis : Nat) (box : Option (Q3 × Q3)) (a : BNode) (b : BNode)

/-- `Split_BNode`: below 4 points or below the distance threshold the node is
kept; otherwise points are split at the median of the widest-axis
coordinates (midpoint fallback when the median hits a bound) and the children
are built and split recursively.  `fuel` bounds the recursion depth; the
top-level call provides more fuel than the split depth ever needs (each split
strictly decreases the point count of every child). -/
def splitBNode (dist : ℚ) : Nat → Option (Q3 × Q3) → List Q3 → BNode
  | 0, box, pts => .leaf 0 box pts
  | fuel + 1, box, pts =>
    if pts.length < 4 then .leaf 0 box pts else
    match box with
    | none => .leaf 0 none pts
    | some (mn, mx) =>
      let r0 := mx.1 - mn.1
      let r1 := mx.2.1 - mn.2.1
      let r2 := mx.2.2 - mn.2.2
      let axis := if r0 ≥ r1 ∧ r0 ≥ r2 then 0 else if r1 ≥ r2 then 1 else 2
      if qc mx axis - qc mn axis < dist then .leaf axis (some (mn, mx)) pts else
      let keys := (pts.map (fun p => qc p axis)).insertionSort (· ≤ ·)
      let median0 := keys.getD (pts.length / 2) 0
      let median := if median0 = qc mx axis ∨ median0 = qc mn axis
        then (qc mx axis + qc mn axis) / 2 else median0
      let aPts := pts.filter (fun p => qc p axis ≤ median)
      let bPts := pts.filter (fun p => ¬ (qc p axis ≤ median))
      .node axis (some (mn, mx))
        (splitBNode dist fuel (aPts.foldl (childBoxUpd axis) none) aPts)
        (splitBNode dist fuel (bPts.foldl (childBoxUpd axis) none) bPts)

/-- `BvhVl_New`: build the root (correct box), then split. -/
def BvhVl_New (pts : List Q3) (dist : ℚ) : BNode :=
  splitBNode dist (pts.length + 1) (pts.foldl rootBoxUpd none) pts

/-- Does the recorded box bound the point on every coordinate? -/
def inBox (box : Option (Q3 × Q3)) (p : Q3) : Bool :=
  match box with
  | none => false
  | some (mn, mx) =>
    decide (mn.1 ≤ p.1 ∧ p.1 ≤ mx.1) && decide (mn.2.1 ≤ p.2.1 ∧ p.2.1 ≤ mx.2.1) &&
      decide (mn.2.2 ≤ p.2.2 ∧ p.2.2 ≤ mx.2.2)

/-- All points assigned under a node's subtree. -/
def subtreePoints : BNode → List Q3
  | .leaf _ _ pts => pts
  | .node _ _ a b => subtreePoints a ++ subtreePoints b

/-- C9's invariant, as a checker: every node's recorded box bounds every
point of its subtree. -/
def bvhInvariant : BNode → Bool
  | .leaf _ box pts => pts.all (inBox box)
  | .node _ box a b =>
    (subtreePoints a ++ subtreePoints b).all (inBox box) &&
      bvhInvariant a && bvhInvariant b

/-- C9.  After building the BVH over the four points
`(5,0,0), (0,9,0), (10,1,0), (10,2,0)` with threshold 1, the split on the x
axis (median fallback midpoint 5) assigns `(5,0,0)` and `(0,9,0)` to the
first child, whose recorded box — grown with `vert[axis]` instead of
`vert[count]` in the `max` update — is `min (0,0,0)`, `max (5,0,0)`: the
contained point `(0,9,0)` exceeds `max[1] = 0`, so the claimed invariant
fails on the code. -/
theorem bvh_aabb_violated :
    bvhInvariant (BvhVl_New [(5, 0, 0), (0, 9, 0), (10, 1, 0), (10, 2, 0)] 1) = false := by
  norm_num [BvhVl_New, splitBNode, qc, rootBoxUpd, childBoxUpd, bvhInvariant,
    subtreePoints, inBox, List.insertionSort, List.orderedInsert]

/-! ### C5: vertex classification and edge intersection in `src/lib/plane_cut.c`

`Vert_New(point, plane, shape)` computes, for a newly created vertex and a
non-`NULL` plane, the signed offset `dist = point·norm - plane->dist` and
snaps it to exactly 0 when it is below the mixed tolerance; the hash
short-circuit returns the previously created vertex with the same stored
`dist`.  `Edge_New` precomputes the plane intersection point of an edge whose
endpoint `dist` values have strictly opposite signs. -/

/-- The cutting plane of `LP_PlaneCut` (`struct plane`). -/
structure Plane where
  norm : V3
  xAxis : V3
  yAxis : V3
  dist : ℝ

/-- The `dist` assignment of `Vert_New` (`plane != NULL` branch):
`tol = Norm(point)`, raised to `|plane->dist|` when larger, scaled by `1e-5`;
`dist = point·norm - plane->dist`, snapped to 0 when `|dist| < tol`. -/
noncomputable def vertDist (plane : Plane) (point : V3) : ℝ :=
  let tol0 := Norm point
  let tol1 := if |plane.dist| > tol0 then |plane.dist| else tol0
  let tol := tol1 * 1e-5
  let d := Dot point plane.norm - plane.dist
  if |d| < tol then 0 else d

/-- The intersection point of `Edge_New` for endpoints `p1, p2` carrying
`dist` values `d1, d2`: valid exactly when the signs are strictly opposite,
with `x = -d1/(d2 - d1)`, `y = 1 - x`, `inter = y*p1 + x*p2`
(componentwise as in the code). -/
noncomputable def edgeInter (d1 d2 : ℝ) (p1 p2 : V3) : Option V3 :=
  if (d1 > 0 ∧ d2 < 0) ∨ (d1 < 0 ∧ d2 > 0) then
    let x := -d1 / (d2 - d1)
    let y := 1 - x
    some ⟨y * p1.x + x * p2.x, y * p1.y + x * p2.y, y * p1.z + x * p2.z⟩
  else none

/-- C5.  Every vertex's `dist` is `v·n - d` snapped to exactly zero when
`|v·n - d| < 1e-5 · max(|v|, |d|)` (with `|v|` the Euclidean norm), and for
strictly opposite-sign endpoints the precomputed intersection point is
`p1 + x·(p2 - p1)` with `x = -d1/(d2 - d1)`. -/
theorem planeCut_vertDist_edgeInter_spec (plane : Plane) (v p1 p2 : V3) (d1 d2 : ℝ) :
    (vertDist plane v =
      if |Dot v plane.norm - plane.dist| < 1e-5 * max (Norm v) |plane.dist| then 0
      else Dot v plane.norm - plane.dist) ∧
    ((d1 > 0 ∧ d2 < 0) ∨ (d1 < 0 ∧ d2 > 0) →
      edgeInter d1 d2 p1 p2 = some (p1.add (V3.smul (-d1 / (d2 - d1)) (p2.sub p1)))) := by
  constructor
  · have hmax : (if |plane.dist| > Norm v then |plane.dist| else Norm v)
        = max (Norm v) |plane.dist| := by
      rcases lt_or_le (Norm v) |plane.dist| with h | h
      · rw [if_pos h, max_eq_right h.le]
      · rw [if_neg (not_lt.mpr h), max_eq_left h]
    rw [vertDist]
    simp only [hmax, mul_comm]
  · intro h
    rw [edgeInter, if_pos h]
    simp only [V3.add, V3.smul, V3.sub, Option.some.injEq, V3.mk.injEq]
    refine ⟨by ring, by ring, by ring⟩

/-- Witness for C5 at concrete inputs: the plane `z = 0` with the vertex
`(0,3,4)` (no snap: `|4| ≥ 5e-5`), and the edge from `(0,0,0)` (`d1 = 1`) to
`(2,2,2)` (`d2 = -1`), whose intersection is the midpoint. -/
theorem planeCut_vertDist_edgeInter_spec_witness :
    (vertDist ⟨⟨0, 0, 1⟩, ⟨1, 0, 0⟩, ⟨0, 1, 0⟩, 0⟩ ⟨0, 3, 4⟩ =
      if |Dot ⟨0, 3, 4⟩ (⟨0, 0, 1⟩ : V3) - 0| < 1e-5 * max (Norm ⟨0, 3, 4⟩) |(0 : ℝ)| then 0
      else Dot ⟨0, 3, 4⟩ (⟨0, 0, 1⟩ : V3) - 0) ∧
    (((1 : ℝ) > 0 ∧ (-1 : ℝ) < 0) ∧
      edgeInter 1 (-1) ⟨0, 0, 0⟩ ⟨2, 2, 2⟩ =
        some ((V3.mk 0 0 0).add (V3.smul (-1 / (-1 - 1)) ((V3.mk 2 2 2).sub ⟨0, 0, 0⟩)))) := by
  refine ⟨?_, ⟨by norm_num, ?_⟩⟩
  · exact (planeCut_vertDist_edgeInter_spec ⟨⟨0, 0, 1⟩, ⟨1, 0, 0⟩, ⟨0, 1, 0⟩, 0⟩
      ⟨0, 3, 4⟩ ⟨0, 0, 0⟩ ⟨2, 2, 2⟩ 1 (-1)).1
  · exact (planeCut_vertDist_edgeInter_spec ⟨⟨0, 0, 1⟩, ⟨1, 0, 0⟩, ⟨0, 1, 0⟩, 0⟩
      ⟨0, 3, 4⟩ ⟨0, 0, 0⟩ ⟨2, 2, 2⟩ 1 (-1)).2 (Or.inl ⟨by norm_num, by norm_num⟩)

/-! ### C2: `Categorize` in `src/lib/convex_hull.c`

A Quickhull face carries its vertex ring (`face->verts`, followed through
`next` starting at the head; `face->verts->prev` is the last ring element)
and the cached `norm`, `xx`, `yy` vectors set by `Face_New`.  `Categorize`
computes, in one pass over the ring:
* `dist` — dot of `(prev vertex - pt)` with `norm`;
* for each ring edge `(prev, cur)`, the planar signed distance `dd` of `pt`
  to the edge line in the `(xx, yy)` coordinates of the vertices relative to
  `pt`, and their running maximum (seeded with `-INFINITY`);
* `area` — the running shoelace sum `x1*y2 - y1*x2`, which for a triangle is
  twice its in-plane area;
and decides `DELETE` / `EXTEND` / `PRESENT` from `dist`, `max`, and
`tol = 1e-5 * sqrt(|area|)`.
-/

/-- The three categorization results (`PRESENT`, `EXTEND`, `DELETE` sentinel
pointers). -/
inductive Cat where
  | PRESENT
  | EXTEND
  | DELETE
deriving DecidableEq

/-- A Quickhull face as read by `Categorize`. -/
structure CHFace where
  verts : List V3
  norm : V3
  xx : V3
  yy : V3

/-- 2D coordinates of `v` relative to `pt` in the face basis
(`x2 = Dot(delta, face->xx)`, `y2 = Dot(delta, face->yy)`). -/
def chProj (xx yy pt v : V3) : ℝ × ℝ := (Dot (v.sub pt) xx, Dot (v.sub pt) yy)

/-- The per-edge quantity `dd = (dy*x1 - dx*y1) / sqrtf(dx*dx + dy*dy)` of
the `Categorize` loop, for the edge from `a` to `b` (coordinates relative to
`pt`). -/
noncomputable def edgeDD (a b : ℝ × ℝ) : ℝ :=
  ((b.2 - a.2) * a.1 - (b.1 - a.1) * a.2) /
    Real.sqrt ((b.1 - a.1) * (b.1 - a.1) + (b.2 - a.2) * (b.2 - a.2))

/-- The per-edge shoelace term `x1*y2 - y1*x2`. -/
def edgeCross (a b : ℝ × ℝ) : ℝ := a.1 * b.2 - a.2 * b.1

/-- The ring edges walked by the do-while loop: `(prev, cur)` pairs starting
at `cur = face->verts` with `prev = face->verts->prev` (the last element). -/
def ringEdges (l : List (ℝ × ℝ)) : List ((ℝ × ℝ) × (ℝ × ℝ)) :=
  match l with
  | [] => []
  | v0 :: rest => List.zip ((v0 :: rest).getLastD v0 :: v0 :: rest) (v0 :: rest)

/-- Maximum of a list, seeded with the first element (the C loop seeds with
`-INFINITY`, which the first comparison always replaces; rings are never
empty). -/
def listMax : List ℝ → ℝ
  | [] => 0
  | d :: ds => ds.foldl max d

/-- `Categorize`: compute `dist`, the edge-distance maximum, the shoelace
sum, and `tol`, then branch exactly as the code does. -/
noncomputable def Categorize (face : CHFace) (pt : V3) : Cat :=
  match face.verts with
  | [] => Cat.PRESENT
  | v0 :: rest =>
    let ring := (v0 :: rest).map (chProj face.xx face.yy pt)
    let vprev := (v0 :: rest).getLastD v0
    let dist := Dot (vprev.sub pt) face.norm
    let edges := ringEdges ring
    let area := (edges.map (fun e => edgeCross e.1 e.2)).sum
    let mx := listMax (edges.map (fun e => edgeDD e.1 e.2))
    let tol := 1e-5 * Real.sqrt |area|
    if mx > 0 then
      if |dist| < tol ∨ |dist| < 1e-5 * mx then Cat.EXTEND
      else if dist > 0 then Cat.DELETE
      else Cat.PRESENT
    else if dist > tol then Cat.DELETE
    else if (dist + tol) * (dist + tol) + mx * mx < 4 * tol * tol then Cat.EXTEND
    else Cat.PRESENT

/-! Claim-side definitions for C2, written from the claim's wording:
`dist` is the signed distance of the point to the face plane (offset
`d = n·v0`, sign as in the code's `(vert - pt)·n` convention), `max` is the
maximum over the triangle's three edges of the in-plane signed distance of
the point to that edge, `A` is the triangle's area in the face's in-plane
coordinates, and the decision tree is quoted verbatim. -/

/-- Absolute in-plane coordinates of a point in the face basis. -/
def specProj (xx yy v : V3) : ℝ × ℝ := (Dot v xx, Dot v yy)

/-- In-plane signed distance of the 2D point `q` to the edge from `a` to
`b`. -/
noncomputable def specEdgeDist (q a b : ℝ × ℝ) : ℝ :=
  ((a.1 - q.1) * (b.2 - q.2) - (a.2 - q.2) * (b.1 - q.1)) /
    Real.sqrt ((b.1 - a.1) ^ 2 + (b.2 - a.2) ^ 2)

/-- Twice the signed area of the 2D triangle `a b c`. -/
def shoelace (a b c : ℝ × ℝ) : ℝ :=
  (a.1 * b.2 - a.2 * b.1) + (b.1 * c.2 - b.2 * c.1) + (c.1 * a.2 - c.2 * a.1)

/-- The triangle's (unsigned) area in the face's in-plane coordinates. -/
noncomputable def specArea (xx yy v0 v1 v2 : V3) : ℝ :=
  |shoelace (specProj xx yy v0) (specProj xx yy v1) (specProj xx yy v2)| / 2

/-- The claim's `dist`: signed distance of `pt` to the face plane with offset
`d = n·v0`. -/
def specDist (norm v0 pt : V3) : ℝ := Dot norm v0 - Dot norm pt

/-- The claim's `max`: maximum over the edges `(v0,v1), (v1,v2), (v2,v0)` of
the in-plane signed distance of the point to that edge. -/
noncomputable def specMax (xx yy pt v0 v1 v2 : V3) : ℝ :=
  let q := specProj xx yy pt
  let p0 := specProj xx yy v0
  let p1 := specProj xx yy v1
  let p2 := specProj xx yy v2
  max (max (specEdgeDist q p0 p1) (specEdgeDist q p1 p2)) (specEdgeDist q p2 p0)

/-- The claim's decision tree: if `max > 0` then `EXTEND` iff `|dist| < tol`
or `|dist| < 1e-5·max`, else `DELETE` if `dist > 0`, else `PRESENT`; if
`max ≤ 0` then `DELETE` if `dist > tol`, `EXTEND` if
`(dist+tol)² + max² < 4·tol²`, and `PRESENT` otherwise. -/
noncomputable def claimDecision (dist mx tol : ℝ) : Cat :=
  if mx > 0 then
    if |dist| < tol ∨ |dist| < 1e-5 * mx then Cat.EXTEND
    else if dist > 0 then Cat.DELETE
    else Cat.PRESENT
  else if dist > tol then Cat.DELETE
  else if (dist + tol) ^ 2 + mx ^ 2 < 4 * tol ^ 2 then Cat.EXTEND
  else Cat.PRESENT

lemma edgeDD_eq_specEdgeDist (xx yy pt a b : V3) :
    edgeDD (chProj xx yy pt a) (chProj xx yy pt b)
      = specEdgeDist (specProj xx yy pt) (specProj xx yy a) (specProj xx yy b) := by
  simp only [edgeDD, specEdgeDist, chProj, specProj, Dot, V3.sub]
  congr 1
  · ring
  · congr 1
    ring

lemma max_rot (a b c : ℝ) : max (max c a) b = max (max a b) c := by
  rw [max_comm c a, max_assoc, max_comm c b, ← max_assoc]

lemma claimDecision_eq_codeShape (d m t : ℝ) :
    claimDecision d m t =
      (if m > 0 then
        if |d| < t ∨ |d| < 1e-5 * m then Cat.EXTEND
        else if d > 0 then Cat.DELETE
        else Cat.PRESENT
      else if d > t then Cat.DELETE
      else if (d + t) * (d + t) + m * m < 4 * t * t then Cat.EXTEND
      else Cat.PRESENT) := by
  unfold claimDecision
  by_cases h1 : m > 0
  · simp [h1]
  · simp only [if_neg h1]
    by_cases h2 : d > t
    · simp [h2]
    · simp only [if_neg h2]
      by_cases h3 : (d + t) ^ 2 + m ^ 2 < 4 * t ^ 2
      · rw [if_pos h3, if_pos (by nlinarith)]
      · rw [if_neg h3, if_neg (fun hc => h3 (by nlinarith))]

/-- C2 (amended).  For a triangular face ring `[v0, v1, v2]` whose vertices
lie on the plane of `norm` (so that `n·v0 = n·v2`), `Categorize` decides the
claim's case tree on the claim's `dist` and `max` — but with tolerance
`tol = 1e-5 · sqrt(2·A)` (the square root of the shoelace sum), not
`1e-5 · sqrt(A)` as the claim states: the code's `area` accumulator is twice
the triangle's area. -/
theorem categorize_eq_claimDecision (v0 v1 v2 n xx yy pt : V3)
    (hplane : Dot n v0 = Dot n v2) :
    Categorize ⟨[v0, v1, v2], n, xx, yy⟩ pt =
      claimDecision (specDist n v0 pt) (specMax xx yy pt v0 v1 v2)
        (1e-5 * Real.sqrt (2 * specArea xx yy v0 v1 v2)) := by
  show
    (let A0 := chProj xx yy pt v0
     let A1 := chProj xx yy pt v1
     let A2 := chProj xx yy pt v2
     let dist := Dot (V3.sub v2 pt) n
     let area := edgeCross A2 A0 + (edgeCross A0 A1 + (edgeCross A1 A2 + 0))
     let mx := max (max (edgeDD A2 A0) (edgeDD A0 A1)) (edgeDD A1 A2)
     let tol := 1e-5 * Real.sqrt |area|
     if mx > 0 then
       if |dist| < tol ∨ |dist| < 1e-5 * mx then Cat.EXTEND
       else if dist > 0 then Cat.DELETE
       else Cat.PRESENT
     else if dist > tol then Cat.DELETE
     else if (dist + tol) * (dist + tol) + mx * mx < 4 * tol * tol then Cat.EXTEND
     else Cat.PRESENT) =
    claimDecision (specDist n v0 pt) (specMax xx yy pt v0 v1 v2)
      (1e-5 * Real.sqrt (2 * specArea xx yy v0 v1 v2))
  have hdist : Dot (V3.sub v2 pt) n = specDist n v0 pt := by
    simp only [specDist, Dot, V3.sub] at hplane ⊢
    linear_combination -hplane
  have harea :
      |edgeCross (chProj xx yy pt v2) (chProj xx yy pt v0) +
        (edgeCross (chProj xx yy pt v0) (chProj xx yy pt v1) +
          (edgeCross (chProj xx yy pt v1) (chProj xx yy pt v2) + 0))| =
        2 * specArea xx yy v0 v1 v2 := by
    have hsl : edgeCross (chProj xx yy pt v2) (chProj xx yy pt v0) +
        (edgeCross (chProj xx yy pt v0) (chProj xx yy pt v1) +
          (edgeCross (chProj xx yy pt v1) (chProj xx yy pt v2) + 0)) =
        shoelace (specProj xx yy v0) (specProj xx yy v1) (specProj xx yy v2) := by
      simp only [edgeCross, chProj, specProj, shoelace, Dot, V3.sub]
      ring
    rw [hsl, specArea]
    ring
  have hmx :
      max (max (edgeDD (chProj xx yy pt v2) (chProj xx yy pt v0))
            (edgeDD (chProj xx yy pt v0) (chProj xx yy pt v1)))
          (edgeDD (chProj xx yy pt v1) (chProj xx yy pt v2)) =
        specMax xx yy pt v0 v1 v2 := by
    rw [edgeDD_eq_specEdgeDist, edgeDD_eq_specEdgeDist, edgeDD_eq_specEdgeDist, specMax]
    exact max_rot _ _ _
  simp only []
  rw [hdist, harea, hmx, claimDecision_eq_codeShape]

/-- Witness for the amended C2 at a concrete coplanar face and query point. -/
theorem categorize_eq_claimDecision_witness :
    Dot (⟨0, 0, 1⟩ : V3) ⟨0, 0, 0⟩ = Dot (⟨0, 0, 1⟩ : V3) ⟨0, 3, 0⟩ ∧
    Categorize ⟨[⟨0, 0, 0⟩, ⟨4, 0, 0⟩, ⟨0, 3, 0⟩], ⟨0, 0, 1⟩, ⟨0, 1, 0⟩, ⟨-1, 0, 0⟩⟩
        ⟨1, 1, -(3 / 100000)⟩ =
      claimDecision
        (specDist ⟨0, 0, 1⟩ ⟨0, 0, 0⟩ ⟨1, 1, -(3 / 100000)⟩)
        (specMax ⟨0, 1, 0⟩ ⟨-1, 0, 0⟩ ⟨1, 1, -(3 / 100000)⟩ ⟨0, 0, 0⟩ ⟨4, 0, 0⟩ ⟨0, 3, 0⟩)
        (1e-5 * Real.sqrt
          (2 * specArea ⟨0, 1, 0⟩ ⟨-1, 0, 0⟩ ⟨0, 0, 0⟩ ⟨4, 0, 0⟩ ⟨0, 3, 0⟩)) :=
  ⟨by norm_num [Dot],
   categorize_eq_claimDecision _ _ _ _ _ _ _ (by norm_num [Dot])⟩

/-- C2 counterexample: for the face with ring `(0,0,0), (4,0,0), (0,3,0)`,
normal `(0,0,1)`, basis `xx = (0,1,0)`, `yy = (-1,0,0)` (as `BasisVectors`
computes for this normal), and the query point `(1, 1, -3/100000)`, the code
returns `EXTEND` (`|dist| = 3e-5 < 1e-5·sqrt 12`) while the claim's tree with
`tol = 1e-5 · sqrt(A) = 1e-5 · sqrt 6` returns `DELETE`. -/
theorem categorize_claim_counterexample :
    Categorize ⟨[⟨0, 0, 0⟩, ⟨4, 0, 0⟩, ⟨0, 3, 0⟩], ⟨0, 0, 1⟩, ⟨0, 1, 0⟩, ⟨-1, 0, 0⟩⟩
        ⟨1, 1, -(3 / 100000)⟩ ≠
      claimDecision
        (specDist ⟨0, 0, 1⟩ ⟨0, 0, 0⟩ ⟨1, 1, -(3 / 100000)⟩)
        (specMax ⟨0, 1, 0⟩ ⟨-1, 0, 0⟩ ⟨1, 1, -(3 / 100000)⟩ ⟨0, 0, 0⟩ ⟨4, 0, 0⟩ ⟨0, 3, 0⟩)
        (1e-5 * Real.sqrt
          |specArea ⟨0, 1, 0⟩ ⟨-1, 0, 0⟩ ⟨0, 0, 0⟩ ⟨4, 0, 0⟩ ⟨0, 3, 0⟩|) := by
  have h9 : Real.sqrt 9 = 3 := by
    rw [show (9 : ℝ) = 3 ^ 2 by norm_num, Real.sqrt_sq (by norm_num)]
  have h16 : Real.sqrt 16 = 4 := by
    rw [show (16 : ℝ) = 4 ^ 2 by norm_num, Real.sqrt_sq (by norm_num)]
  have h25 : Real.sqrt 25 = 5 := by
    rw [show (25 : ℝ) = 5 ^ 2 by norm_num, Real.sqrt_sq (by norm_num)]
  have h12 : (3 : ℝ) < Real.sqrt 12 := by
    have := Real.sq_sqrt (by norm_num : (12 : ℝ) ≥ 0)
    nlinarith [Real.sqrt_nonneg (12 : ℝ)]
  have h6 : Real.sqrt 6 ≤ 3 := by
    rw [show (3 : ℝ) = Real.sqrt 9 from h9.symm]
    exact Real.sqrt_le_sqrt (by norm_num)
  have hL :
      Categorize ⟨[⟨0, 0, 0⟩, ⟨4, 0, 0⟩, ⟨0, 3, 0⟩], ⟨0, 0, 1⟩, ⟨0, 1, 0⟩, ⟨-1, 0, 0⟩⟩
        ⟨1, 1, -(3 / 100000)⟩ = Cat.EXTEND := by
    show
      (let A0 := chProj ⟨0, 1, 0⟩ ⟨-1, 0, 0⟩ ⟨1, 1, -(3 / 100000)⟩ ⟨0, 0, 0⟩
       let A1 := chProj ⟨0, 1, 0⟩ ⟨-1, 0, 0⟩ ⟨1, 1, -(3 / 100000)⟩ ⟨4, 0, 0⟩
       let A2 := chProj ⟨0, 1, 0⟩ ⟨-1, 0, 0⟩ ⟨1, 1, -(3 / 100000)⟩ ⟨0, 3, 0⟩
       let dist := Dot (V3.sub ⟨0, 3, 0⟩ ⟨1, 1, -(3 / 100000)⟩) ⟨0, 0, 1⟩
       let area := edgeCross A2 A0 + (edgeCross A0 A1 + (edgeCross A1 A2 + 0))
       let mx := max (max (edgeDD A2 A0) (edgeDD A0 A1)) (edgeDD A1 A2)
       let tol := 1e-5 * Real.sqrt |area|
       if mx > 0 then
         if |dist| < tol ∨ |dist| < 1e-5 * mx then Cat.EXTEND
         else if dist > 0 then Cat.DELETE
         else Cat.PRESENT
       else if dist > tol then Cat.DELETE
       else if (dist + tol) * (dist + tol) + mx * mx < 4 * tol * tol then Cat.EXTEND
       else Cat.PRESENT) = Cat.EXTEND
    norm_num [chProj, Dot, V3.sub, edgeCross, edgeDD, h9, h16, h25]
    intro hc _
    exfalso
    rw [show |(3 : ℝ) / 100000| = 3 / 100000 from abs_of_pos (by norm_num)] at hc
    nlinarith [h12]
  have hR :
      claimDecision
        (specDist ⟨0, 0, 1⟩ ⟨0, 0, 0⟩ ⟨1, 1, -(3 / 100000)⟩)
        (specMax ⟨0, 1, 0⟩ ⟨-1, 0, 0⟩ ⟨1, 1, -(3 / 100000)⟩ ⟨0, 0, 0⟩ ⟨4, 0, 0⟩ ⟨0, 3, 0⟩)
        (1e-5 * Real.sqrt
          |specArea ⟨0, 1, 0⟩ ⟨-1, 0, 0⟩ ⟨0, 0, 0⟩ ⟨4, 0, 0⟩ ⟨0, 3, 0⟩|) = Cat.DELETE := by
    have hdist : specDist ⟨0, 0, 1⟩ ⟨0, 0, 0⟩ (⟨1, 1, -(3 / 100000)⟩ : V3) = 3 / 100000 := by
      norm_num [specDist, Dot]
    have hmax : specMax ⟨0, 1, 0⟩ ⟨-1, 0, 0⟩ ⟨1, 1, -(3 / 100000)⟩
        ⟨0, 0, 0⟩ ⟨4, 0, 0⟩ ⟨0, 3, 0⟩ = 1 := by
      norm_num [specMax, specProj, specEdgeDist, Dot, h9, h16, h25]
    have harea : |specArea ⟨0, 1, 0⟩ ⟨-1, 0, 0⟩ ⟨0, 0, 0⟩ ⟨4, 0, 0⟩ ⟨0, 3, 0⟩| = 6 := by
      norm_num [specArea, specProj, shoelace, Dot]
    rw [hdist, hmax, harea, claimDecision]
    rw [if_pos (show (1 : ℝ) > 0 by norm_num)]
    rw [if_neg, if_pos (show (3 : ℝ) / 100000 > 0 by norm_num)]
    rw [abs_of_pos (by norm_num : (0 : ℝ) < 3 / 100000)]
    push_neg
    constructor
    · calc (1e-5 : ℝ) * Real.sqrt 6 ≤ 1e-5 * 3 := by nlinarith [h6, Real.sqrt_nonneg (6 : ℝ)]
        _ ≤ 3 / 100000 := by norm_num
    · norm_num
  rw [hL, hR]
  intro h
  exact Cat.noConfusion h

/-! ### `BasisVectors` (`src/unnamed/part_009`) and vector identities

`BasisVectors` builds an orthonormal basis of the plane orthogonal to a unit
normal: it copies the normal into `yy`, swaps its largest- and
smallest-magnitude components with flipped signs (via `copysignf`), and takes
`x = normalize(yy × n)`, `y = normalize(n × x)`.

`copysignf` reads the sign bit; ℝ cannot represent `-0.0`, so the model's
`copysignR` treats a zero sign argument as positive.  When the argument to
`copysignf` is `-0.0` the C code picks the negated magnitude instead; the two
choices give bases differing by an in-plane rotation, and no categorization
result depends on that rotation. -/

/-- Real model of `copysignf`. -/
noncomputable def copysignR (a s : ℝ) : ℝ := if s < 0 then -|a| else |a|

/-- `v[i]` for `i < 3`. -/
def vComp (v : V3) : Nat → ℝ
  | 0 => v.x
  | 1 => v.y
  | _ => v.z

/-- Update component `i` of `v`. -/
def vSet (v : V3) (i : Nat) (r : ℝ) : V3 :=
  match i with
  | 0 => ⟨r, v.y, v.z⟩
  | 1 => ⟨v.x, r, v.z⟩
  | _ => ⟨v.x, v.y, r⟩

/-- The index bookkeeping of `BasisVectors`: running first-win argmin and
last-win (`>=`) argmax of the component magnitudes, then the defensive
`min = (max+1) % 3` fix-up (dead for any input, since the argmin and argmax
of three values cannot coincide under these tie rules). -/
noncomputable def basisSel (n : V3) : Nat × Nat :=
  let a0 := |n.x|
  let a1 := |n.y|
  let a2 := |n.z|
  let mn1I := if a1 < a0 then 1 else 0
  let mn1V := if a1 < a0 then a1 else a0
  let mx1I := if a1 ≥ a0 then 1 else 0
  let mx1V := if a1 ≥ a0 then a1 else a0
  let mn2I := if a2 < mn1V then 2 else mn1I
  let mx2I := if a2 ≥ mx1V then 2 else mx1I
  let mnI := if mx2I = mn2I then (mx2I + 1) % 3 else mn2I
  (mnI, mx2I)

/-- The `yy` vector of `BasisVectors`: the normal with its min- and
max-magnitude components replaced by sign-flipped swapped magnitudes. -/
noncomputable def basisYY (n : V3) : V3 :=
  let s := basisSel n
  vSet (vSet n s.1 (copysignR (vComp n s.2) (-(vComp n s.1)))) s.2
    (copysignR (vComp n s.1) (-(vComp n s.2)))

/-- `BasisVectors`: `x = normalize(yy × n)`, `y = normalize(n × x)`. -/
noncomputable def BasisVectors (n : V3) : V3 × V3 :=
  let yy := basisYY n
  let rx := Normalize (Cross yy n)
  (rx, Normalize (Cross n rx))

lemma copysignR_sq (a s : ℝ) : copysignR a s * copysignR a s = a * a := by
  unfold copysignR
  split_ifs <;> simp [abs_mul_abs_self, neg_mul, mul_neg]

lemma copysignR_mul_neg (a b : ℝ) : copysignR a (-b) * b = -(|a| * |b|) := by
  unfold copysignR
  rcases lt_trichotomy b 0 with h | h | h
  · rw [if_neg (by simpa using h.le.not_lt ∘ fun hh => hh), abs_of_neg h]
    ring
  · simp [h]
  · rw [if_pos (by simpa using h), abs_of_pos h]
    ring

lemma cross_dot_self (a b : V3) :
    Dot (Cross a b) (Cross a b) = Dot a a * Dot b b - Dot a b * Dot a b := by
  simp only [Dot, Cross]
  ring

lemma dot_cross_right (a b : V3) : Dot (Cross a b) b = 0 := by
  simp only [Dot, Cross]
  ring

lemma dot_cross_left (a b : V3) : Dot (Cross a b) a = 0 := by
  simp only [Dot, Cross]
  ring

lemma triple_prod (a b c : V3) :
    Cross a (Cross b c) = (V3.smul (Dot a c) b).sub (V3.smul (Dot a b) c) := by
  simp only [Cross, V3.smul, V3.sub, Dot, V3.mk.injEq]
  refine ⟨by ring, by ring, by ring⟩

lemma dot_comm (a b : V3) : Dot a b = Dot b a := by
  simp only [Dot]
  ring

lemma dot_smul_left (c : ℝ) (a b : V3) : Dot (V3.smul c a) b = c * Dot a b := by
  simp only [Dot, V3.smul]
  ring

lemma basisSel_facts (n : V3) :
    (basisSel n).1 ≠ (basisSel n).2 ∧
    (∀ t, |vComp n (basisSel n).1| ≤ |vComp n t|) ∧
    (∀ t, |vComp n t| ≤ |vComp n (basisSel n).2|) := by
  have hforall : ∀ (P : Nat → Prop), P 0 → P 1 → (∀ m, P (m + 2)) → ∀ t, P t := by
    intro P h0 h1 h2 t
    match t with
    | 0 => exact h0
    | 1 => exact h1
    | m + 2 => exact h2 m
  simp only [basisSel]
  split_ifs <;>
    first
      | (exact False.elim (by assumption))
      | (exfalso; omega)
      | (exfalso; linarith)
      | (refine ⟨by norm_num, ?_, ?_⟩ <;>
          (refine hforall _ ?_ ?_ (fun m => ?_) <;> simp only [vComp] <;> linarith))
lemma basisSel_lt (n : V3) : (basisSel n).1 < 3 ∧ (basisSel n).2 < 3 := by
  simp only [basisSel]
  split_ifs <;> omega

lemma basisYY_dots (n : V3) :
    Dot (basisYY n) (basisYY n) = Dot n n ∧
    Dot (basisYY n) n =
      Dot n n - (|vComp n (basisSel n).1| + |vComp n (basisSel n).2|) ^ 2 := by
  obtain ⟨hne, -, -⟩ := basisSel_facts n
  obtain ⟨hlt1, hlt2⟩ := basisSel_lt n
  simp only [basisYY]
  rcases hs : basisSel n with ⟨i, j⟩
  rw [hs] at hne hlt1 hlt2
  dsimp only at hne hlt1 hlt2 ⊢
  have hi : i = 0 ∨ i = 1 ∨ i = 2 := by omega
  have hj : j = 0 ∨ j = 1 ∨ j = 2 := by omega
  rcases hi with rfl | rfl | rfl <;> rcases hj with rfl | rfl | rfl <;>
    first
      | (exact absurd rfl hne)
      | (constructor
         · simp only [vSet, vComp, Dot]
           rw [copysignR_sq, copysignR_sq]
           ring
         · simp only [vSet, vComp, Dot]
           rw [copysignR_mul_neg, copysignR_mul_neg]
           ring_nf
           simp only [sq_abs]
           ring_nf)

lemma basisSel_third (n : V3) : ∃ k,
    k ≠ (basisSel n).1 ∧ k ≠ (basisSel n).2 ∧
    Dot n n = vComp n (basisSel n).1 * vComp n (basisSel n).1 +
      vComp n (basisSel n).2 * vComp n (basisSel n).2 + vComp n k * vComp n k := by
  obtain ⟨hne, -, -⟩ := basisSel_facts n
  obtain ⟨hlt1, hlt2⟩ := basisSel_lt n
  rcases hs : basisSel n with ⟨i, j⟩
  rw [hs] at hne hlt1 hlt2
  dsimp only at hne hlt1 hlt2 ⊢
  have hi : i = 0 ∨ i = 1 ∨ i = 2 := by omega
  have hj : j = 0 ∨ j = 1 ∨ j = 2 := by omega
  rcases hi with rfl | rfl | rfl <;> rcases hj with rfl | rfl | rfl <;>
    first
      | (exact absurd rfl hne)
      | (exact ⟨2, by omega, by omega, by simp only [vComp, Dot]; try ring⟩)
      | (exact ⟨1, by omega, by omega, by simp only [vComp, Dot]; try ring⟩)
      | (exact ⟨0, by omega, by omega, by simp only [vComp, Dot]; try ring⟩)

lemma dot_smul_smul (s t : ℝ) (a b : V3) :
    Dot (V3.smul s a) (V3.smul t b) = s * t * Dot a b := by
  simp only [Dot, V3.smul]
  ring

lemma smul_one_v3 (v : V3) : V3.smul 1 v = v := by
  simp [V3.smul]

lemma sub_zero_v3 (v : V3) : v.sub ⟨0, 0, 0⟩ = v := by
  simp [V3.sub]

/-- For a unit normal, `BasisVectors` returns a right-handed orthonormal
in-plane basis: the cross product of the two basis vectors is the normal
itself.  The key nondegeneracy fact is that the component-swapped `yy` is
never parallel to `n`. -/
lemma basisVectors_cross (n : V3) (hn : Dot n n = 1) :
    Cross (BasisVectors n).1 (BasisVectors n).2 = n := by
  obtain ⟨-, hmin, hmax⟩ := basisSel_facts n
  obtain ⟨hyy2, hyyn⟩ := basisYY_dots n
  obtain ⟨k, -, -, hsum⟩ := basisSel_third n
  set a := |vComp n (basisSel n).1| with ha
  set b := |vComp n (basisSel n).2| with hb
  set c := |vComp n k| with hc
  have ha0 : 0 ≤ a := abs_nonneg _
  have hb0 : 0 ≤ b := abs_nonneg _
  have hc0 : 0 ≤ c := abs_nonneg _
  have hac : a ≤ c := hmin k
  have hcb : c ≤ b := hmax k
  have habc : a * a + b * b + c * c = 1 := by
    rw [ha, hb, hc]
    rw [abs_mul_abs_self, abs_mul_abs_self, abs_mul_abs_self]
    linarith [hsum, hn]
  have hbpos : 0 < b := by
    rcases hb0.lt_or_eq with h | h
    · exact h
    · exfalso
      nlinarith [h.symm, hac, hcb, ha0]
  -- the squared norm of yy × n is S(2-S) with S = (a+b)², and 0 < S(2-S)
  have hS1 : 0 < (a + b) ^ 2 := by positivity
  have hS2 : (a + b) ^ 2 < 2 := by
    rcases hc0.lt_or_eq with h | h
    · nlinarith [sq_nonneg (a - b)]
    · have hc' : c = 0 := h.symm
      have ha' : a = 0 := le_antisymm (hc' ▸ hac) ha0
      nlinarith [ha', hc']
  have hcc : 0 < Dot (Cross (basisYY n) n) (Cross (basisYY n) n) := by
    rw [cross_dot_self, hyy2, hn, hyyn, hn]
    nlinarith [hS1, hS2]
  have hNpos : 0 < Norm (Cross (basisYY n) n) := Real.sqrt_pos.mpr hcc
  have hNsq : Norm (Cross (basisYY n) n) * Norm (Cross (basisYY n) n) =
      Dot (Cross (basisYY n) n) (Cross (basisYY n) n) :=
    Real.mul_self_sqrt hcc.le
  -- unfold the two Normalize applications
  have hbx : Normalize (Cross (basisYY n) n) =
      V3.smul (1 / Norm (Cross (basisYY n) n)) (Cross (basisYY n) n) := by
    rw [Normalize]
    simp only [if_neg hNpos.ne']
  set N := Norm (Cross (basisYY n) n) with hN
  set bx := V3.smul (1 / N) (Cross (basisYY n) n) with hbxdef
  have hbx2 : Dot bx bx = 1 := by
    rw [hbxdef, dot_smul_smul]
    field_simp
    linarith [hNsq]
  have hbxn : Dot bx n = 0 := by
    have : Dot (Cross (basisYY n) n) n = 0 := dot_cross_right _ _
    rw [hbxdef, dot_smul_left, this, mul_zero]
  have hry2 : Dot (Cross n bx) (Cross n bx) = 1 := by
    rw [cross_dot_self, hn, hbx2, dot_comm n bx, hbxn]
    ring
  have hryN : Norm (Cross n bx) = 1 := by
    show Real.sqrt (Norm2 (Cross n bx)) = 1
    rw [Norm2, hry2, Real.sqrt_one]
  have hry : Normalize (Cross n bx) = Cross n bx := by
    rw [Normalize]
    simp only [hryN]
    rw [if_neg one_ne_zero]
    norm_num [smul_one_v3]
  show Cross (Normalize (Cross (basisYY n) n))
      (Normalize (Cross n (Normalize (Cross (basisYY n) n)))) = n
  rw [hbx, hry, triple_prod, hbx2, hbxn, smul_one_v3]
  show (n.sub (V3.smul 0 bx)) = n
  have : V3.smul 0 bx = ⟨0, 0, 0⟩ := by simp [V3.smul]
  rw [this, sub_zero_v3]

/-! ### C3/C4: `InitSimplex` (`src/lib/convex_hull.c`)

`InitSimplex` gets the unique-point array of the input vertex list.  It
* fails on fewer than 4 points;
* scans for the indices of the smallest- and largest-`x` points (strict
  comparisons against `INFINITY`/`-INFINITY` seeds, so the first extremal
  index wins; for a nonempty array this equals seeding with element 0 and
  scanning the rest, which is how the model writes it);
* scans for the index maximizing the summed distance to those two points
  (seed value 0, seed index 0, strict comparison);
* builds the initial face (`Face_New` fills `norm` via `PlaneNorm` and the
  basis via `BasisVectors`) and fails if the normal is the zero vector
  (colinear input);
* classifies every other point with `Categorize`, putting `DELETE` points on
  the face's list keyed by `dist`, `EXTEND` points in the shared pool keyed
  by `|dist|`, and `PRESENT` points in `below` keyed by `-dist`;
* flips the face (swapping the first two ring vertices, negating the normal,
  and exchanging the two lists) when `face->pts->max_dist > below->max_dist`;
* fails if `below` is empty (coplanar input).
The model returns the state just before the tail of `InitSimplex`
(`Face_Update`, `PointList_Join` and the initial `BuildNewFaces` call); that
tail and the whole of `FindHull`/`BuildVl` are abstracted by the `rest`
parameter of `LP_ConvexHull`, which cannot turn a failed `InitSimplex` into
a successful hull (the code jumps to the error exit). -/

/-- Scan for the minimal and maximal `x`:
state `((min_val, min_idx), (max_val, max_idx))`. -/
noncomputable def scanMinMax : List V3 → Nat → (ℝ × Nat) × (ℝ × Nat) → (ℝ × Nat) × (ℝ × Nat)
  | [], _, st => st
  | p :: rest, idx, st =>
    scanMinMax rest (idx + 1)
      ((if p.x < st.1.1 then (p.x, idx) else st.1),
       (if p.x > st.2.1 then (p.x, idx) else st.2))

/-- Indices of the first minimal-`x` and first maximal-`x` points. -/
noncomputable def minMaxX (data : List V3) : Nat × Nat :=
  match data with
  | [] => (0, 0)
  | p :: rest =>
    let st := scanMinMax rest 1 ((p.x, 0), (p.x, 0))
    (st.1.2, st.2.2)

/-- Scan for the point with the largest combined distance from the min-`x`
and max-`x` points (seed value 0 at index 0). -/
noncomputable def ddScan (mnP mxP : V3) : List V3 → Nat → ℝ × Nat → ℝ × Nat
  | [], _, st => st
  | p :: rest, idx, st =>
    ddScan mnP mxP rest (idx + 1)
      (if Dist p mnP + Dist p mxP > st.1 then (Dist p mnP + Dist p mxP, idx) else st)

/-- The third initial vertex (`dd_idx`). -/
noncomputable def ddIdx (data : List V3) (mnP mxP : V3) : Nat :=
  (ddScan mnP mxP data 0 (0, 0)).2

/-- `struct point_list`, as far as `InitSimplex` observes it: the index
items in list order and the cached `max_dist` (0 after `memset`).
`PointList_Add` keeps `max_dist` equal to the largest inserted key by
prepending new maxima and appending everything else. -/
structure PointList where
  items : List Nat
  maxDist : ℝ

/-- A fresh (zeroed) point list. -/
def PointList.empty : PointList := ⟨[], 0⟩

/-- `PointList_Add`. -/
noncomputable def PointList.add (pl : PointList) (i : Nat) (d : ℝ) : PointList :=
  if pl.items = [] then ⟨[i], d⟩
  else if d > pl.maxDist then ⟨i :: pl.items, d⟩
  else ⟨pl.items ++ [i], pl.maxDist⟩

/-- The `dist` value `Categorize` reports through `dist_out`: dot of
`(prev vertex - pt)` with the face normal. -/
noncomputable def categorizeDist (face : CHFace) (pt : V3) : ℝ :=
  match face.verts with
  | [] => 0
  | v0 :: rest => Dot (((v0 :: rest).getLastD v0).sub pt) face.norm

/-- The classification loop of `InitSimplex`: every index other than the
three face vertices is categorized and appended to `(face->pts, pool,
below)`. -/
noncomputable def classifyScan (face : CHFace) (i1 i2 i3 : Nat) :
    List V3 → Nat → PointList × PointList × PointList →
      PointList × PointList × PointList
  | [], _, st => st
  | p :: rest, idx, st =>
    classifyScan face i1 i2 i3 rest (idx + 1)
      (if idx = i1 ∨ idx = i2 ∨ idx = i3 then st
       else
         let dist := categorizeDist face p
         match Categorize face p with
         | Cat.DELETE => (st.1.add idx dist, st.2.1, st.2.2)
         | Cat.EXTEND => (st.1, (st.2.1).add idx |dist|, st.2.2)
         | Cat.PRESENT => (st.1, st.2.1, (st.2.2).add idx (-dist)))

/-- Classification of all points against the initial face. -/
noncomputable def initClassify (data : List V3) (face : CHFace) (i1 i2 i3 : Nat) :
    PointList × PointList × PointList :=
  classifyScan face i1 i2 i3 data 0
    (PointList.empty, PointList.empty, PointList.empty)

/-- The face flip: swap the first two ring vertices and negate the normal. -/
noncomputable def chFlip (face : CHFace) : CHFace :=
  { face with
    verts := match face.verts with
      | a :: b :: rest => b :: a :: rest
      | l => l
    norm := face.norm.neg }

/-- The flip step of `InitSimplex`: when the face list's `max_dist` exceeds
`below`'s, swap the two lists and flip the face. -/
noncomputable def initFlip (face : CHFace) (fpts below : PointList) :
    CHFace × PointList × PointList :=
  if fpts.maxDist > below.maxDist then (chFlip face, below, fpts)
  else (face, fpts, below)

/-- The state `InitSimplex` hands to the rest of the hull construction. -/
structure InitState where
  face : CHFace
  facePts : PointList
  pool : PointList
  below : PointList

/-- `InitSimplex`. -/
noncomputable def InitSimplex (data : List V3) : Option InitState :=
  if data.length < 4 then none
  else
    let mm := minMaxX data
    let pmin := data.getD mm.1 ⟨0, 0, 0⟩
    let pmax := data.getD mm.2 ⟨0, 0, 0⟩
    let dd := ddIdx data pmin pmax
    let pdd := data.getD dd ⟨0, 0, 0⟩
    let norm := PlaneNorm pmin pmax pdd
    let basis := BasisVectors norm
    let face : CHFace := ⟨[pmin, pmax, pdd], norm, basis.1, basis.2⟩
    if Norm2 norm = 0 then none
    else
      let cl := initClassify data face mm.1 mm.2 dd
      let fl := initFlip face cl.1 cl.2.2
      if fl.2.2.items = [] then none
      else some ⟨fl.1, fl.2.1, cl.2.1, fl.2.2⟩

/-- `LP_ConvexHull`, with everything after a successful `InitSimplex`
(`FindHull`, `BuildVl`) abstracted as `rest`: an `InitSimplex` failure makes
the whole hull fail regardless of the remainder. -/
noncomputable def LP_ConvexHull {α : Type} (rest : InitState → Option α)
    (data : List V3) : Option α :=
  match InitSimplex data with
  | none => none
  | some st => rest st

lemma getD_mem_v3 {l : List V3} {i : Nat} (h : i < l.length) (d : V3) :
    l.getD i d ∈ l := by
  rw [List.getD_eq_getElem l d h]
  exact List.getElem_mem h

lemma scanMinMax_lt (l : List V3) (idx : Nat) (st : (ℝ × Nat) × (ℝ × Nat)) (N : Nat)
    (h1 : st.1.2 < N) (h2 : st.2.2 < N) (hlen : idx + l.length ≤ N) :
    (scanMinMax l idx st).1.2 < N ∧ (scanMinMax l idx st).2.2 < N := by
  induction l generalizing idx st with
  | nil => exact ⟨h1, h2⟩
  | cons p rest ih =>
    simp only [scanMinMax]
    simp only [List.length_cons] at hlen
    refine ih (idx + 1) _ ?_ ?_ (by omega)
    · by_cases h : p.x < st.1.1 <;> simp [h] <;> omega
    · by_cases h : p.x > st.2.1 <;> simp [h] <;> omega

lemma minMaxX_lt {data : List V3} (h : data ≠ []) :
    (minMaxX data).1 < data.length ∧ (minMaxX data).2 < data.length := by
  match data with
  | [] => exact absurd rfl h
  | p :: rest =>
    simp only [minMaxX, List.length_cons]
    exact scanMinMax_lt rest 1 ((p.x, 0), (p.x, 0)) (rest.length + 1)
      (Nat.succ_pos _) (Nat.succ_pos _) (by omega)

lemma ddScan_lt (mnP mxP : V3) (l : List V3) (idx : Nat) (st : ℝ × Nat) (N : Nat)
    (h : st.2 < N) (hlen : idx + l.length ≤ N) :
    (ddScan mnP mxP l idx st).2 < N := by
  induction l generalizing idx st with
  | nil => exact h
  | cons p rest ih =>
    simp only [ddScan]
    simp only [List.length_cons] at hlen
    refine ih (idx + 1) _ ?_ (by omega)
    by_cases hgt : Dist p mnP + Dist p mxP > st.1 <;> simp [hgt] <;> omega

lemma ddIdx_lt {data : List V3} (h : data ≠ []) (mnP mxP : V3) :
    ddIdx data mnP mxP < data.length := by
  have hpos : 0 < data.length := List.length_pos.mpr h
  exact ddScan_lt mnP mxP data 0 (0, 0) data.length (by omega) (by omega)

lemma triple_prod_left (a b c : V3) :
    Cross (Cross a b) c = (V3.smul (Dot a c) b).sub (V3.smul (Dot b c) a) := by
  simp only [Cross, V3.smul, V3.sub, Dot, V3.mk.injEq]
  refine ⟨by ring, by ring, by ring⟩

lemma dot_sub_left (a b n : V3) : Dot (a.sub b) n = Dot a n - Dot b n := by
  simp only [Dot, V3.sub]
  ring

lemma cross_smul_smul (s t : ℝ) (u : V3) :
    Cross (V3.smul s u) (V3.smul t u) = ⟨0, 0, 0⟩ := by
  simp only [Cross, V3.smul, V3.mk.injEq]
  refine ⟨by ring, by ring, by ring⟩

lemma affine_sub (a d : V3) (t1 t2 : ℝ) :
    (a.add (V3.smul t2 d)).sub (a.add (V3.smul t1 d)) = V3.smul (t2 - t1) d := by
  simp only [V3.add, V3.smul, V3.sub, V3.mk.injEq]
  refine ⟨by ring, by ring, by ring⟩

lemma normalize_zero : Normalize ⟨0, 0, 0⟩ = ⟨0, 0, 0⟩ := by
  simp [Normalize, V3.smul]

lemma norm2_zero : Norm2 ⟨0, 0, 0⟩ = 0 := by
  simp [Norm2, Dot]

lemma dot_self_pos {v : V3} (h : v ≠ ⟨0, 0, 0⟩) : 0 < Dot v v := by
  obtain ⟨x, y, z⟩ := v
  have hne : x ≠ 0 ∨ y ≠ 0 ∨ z ≠ 0 := by
    by_contra hc
    push_neg at hc
    exact h (by simp [hc.1, hc.2.1, hc.2.2])
  simp only [Dot]
  rcases hne with hx | hy | hz
  · nlinarith [mul_self_nonneg y, mul_self_nonneg z, mul_self_pos.mpr hx]
  · nlinarith [mul_self_nonneg x, mul_self_nonneg z, mul_self_pos.mpr hy]
  · nlinarith [mul_self_nonneg x, mul_self_nonneg y, mul_self_pos.mpr hz]

lemma v3_ne_zero_iff (n : V3) :
    n ≠ ⟨0, 0, 0⟩ ↔ (n.x ≠ 0 ∨ n.y ≠ 0 ∨ n.z ≠ 0) := by
  obtain ⟨x, y, z⟩ := n
  simp only [ne_eq, V3.mk.injEq, not_and_or]

/-- Three vectors orthogonal to a common nonzero vector span at most a
plane: any triple product of them vanishes. -/
lemma dot_cross_zero_of_orth (u w v n : V3) (hn : n ≠ ⟨0, 0, 0⟩)
    (hu : Dot u n = 0) (hw : Dot w n = 0) (hv : Dot v n = 0) :
    Dot v (Cross u w) = 0 := by
  have hcr : Cross (Cross u w) n = ⟨0, 0, 0⟩ := by
    rw [triple_prod_left, hu, hw]
    simp [V3.smul, V3.sub]
  have e1 := congrArg V3.x hcr
  have e2 := congrArg V3.y hcr
  have e3 := congrArg V3.z hcr
  simp only [Cross] at e1 e2 e3
  simp only [Dot] at hv ⊢
  rcases (v3_ne_zero_iff n).mp hn with hx | hy | hz
  · have key : (v.x * (Cross u w).x + v.y * (Cross u w).y + v.z * (Cross u w).z) * n.x = 0 := by
      simp only [Cross] at *
      linear_combination (-v.y) * e3 + v.z * e2 + (u.y * w.z - u.z * w.y) * hv
    exact (mul_eq_zero.mp key).resolve_right hx
  · have key : (v.x * (Cross u w).x + v.y * (Cross u w).y + v.z * (Cross u w).z) * n.y = 0 := by
      simp only [Cross] at *
      linear_combination v.x * e3 + (-v.z) * e1 + (u.z * w.x - u.x * w.z) * hv
    exact (mul_eq_zero.mp key).resolve_right hy
  · have key : (v.x * (Cross u w).x + v.y * (Cross u w).y + v.z * (Cross u w).z) * n.z = 0 := by
      simp only [Cross] at *
      linear_combination (-v.x) * e2 + v.y * e1 + (u.x * w.y - u.y * w.x) * hv
    exact (mul_eq_zero.mp key).resolve_right hz

lemma dot_self_nonneg (v : V3) : 0 ≤ Dot v v := by
  simp only [Dot]
  nlinarith [mul_self_nonneg v.x, mul_self_nonneg v.y, mul_self_nonneg v.z]

lemma norm_pos_of_ne_zero {v : V3} (h : v ≠ ⟨0, 0, 0⟩) : 0 < Norm v :=
  Real.sqrt_pos.mpr (dot_self_pos h)

lemma norm_mul_self (v : V3) : Norm v * Norm v = Dot v v :=
  Real.mul_self_sqrt (dot_self_nonneg v)

lemma normalize_eq_smul (v : V3) (h : v ≠ ⟨0, 0, 0⟩) :
    Normalize v = V3.smul (1 / Norm v) v := by
  simp only [Normalize]
  rw [if_neg (norm_pos_of_ne_zero h).ne']

lemma normalize_dot_self {v : V3} (h : v ≠ ⟨0, 0, 0⟩) :
    Dot (Normalize v) (Normalize v) = 1 := by
  rw [normalize_eq_smul v h, dot_smul_smul]
  have hN := norm_pos_of_ne_zero h
  have := norm_mul_self v
  field_simp
  linarith [norm_mul_self v]

lemma normalize_dot_base {v : V3} (h : v ≠ ⟨0, 0, 0⟩) :
    Dot (Normalize v) v = Norm v := by
  rw [normalize_eq_smul v h, dot_smul_left]
  have hN := norm_pos_of_ne_zero h
  rw [← norm_mul_self v]
  field_simp

/-- The three-term shoelace sum of `Categorize`, translation-based, as the
clean triple product: for `ring = [q0, q1, q2]` the accumulator equals
`(xx × yy) · ((v1 - v0) × (v2 - v1))` (Binet-Cauchy). -/
lemma categorize_area_eq (xx yy pt v0 v1 v2 : V3) :
    edgeCross (chProj xx yy pt v2) (chProj xx yy pt v0)
      + (edgeCross (chProj xx yy pt v0) (chProj xx yy pt v1)
      + (edgeCross (chProj xx yy pt v1) (chProj xx yy pt v2) + 0))
    = Dot (Cross xx yy) (Cross (v1.sub v0) (v2.sub v1)) := by
  simp only [edgeCross, chProj, Dot, Cross, V3.sub]
  ring

/-- A positive shoelace term forces a positive edge distance `dd` (the
numerator of `dd` is exactly the shoelace term, and the length is positive
because a positive term rules out a degenerate edge). -/
lemma edgeDD_pos_of_cross_pos (a b : ℝ × ℝ) (h : 0 < edgeCross a b) :
    0 < edgeDD a b := by
  have hnum : (b.2 - a.2) * a.1 - (b.1 - a.1) * a.2 = edgeCross a b := by
    simp only [edgeCross]
    ring
  have hD : 0 < (b.1 - a.1) * (b.1 - a.1) + (b.2 - a.2) * (b.2 - a.2) := by
    rcases lt_or_eq_of_le (add_nonneg (mul_self_nonneg (b.1 - a.1))
        (mul_self_nonneg (b.2 - a.2))) with hlt | heq
    · exact hlt
    · exfalso
      have h1 : b.1 - a.1 = 0 := by
        nlinarith [mul_self_nonneg (b.1 - a.1), mul_self_nonneg (b.2 - a.2)]
      have h2 : b.2 - a.2 = 0 := by
        nlinarith [mul_self_nonneg (b.1 - a.1), mul_self_nonneg (b.2 - a.2)]
      have hzero : edgeCross a b = 0 := by
        simp only [edgeCross]
        linear_combination a.1 * h2 - a.2 * h1
      linarith
  simp only [edgeDD]
  exact div_pos (by rw [hnum]; exact h) (Real.sqrt_pos.mpr hD)

/-- If the shoelace sum over the triangle ring is positive, the maximum of
the three per-edge distances is positive. -/
lemma listMax_dd_pos (q0 q1 q2 : ℝ × ℝ)
    (h : 0 < edgeCross q2 q0 + (edgeCross q0 q1 + (edgeCross q1 q2 + 0))) :
    0 < max (max (edgeDD q2 q0) (edgeDD q0 q1)) (edgeDD q1 q2) := by
  have hone : 0 < edgeCross q2 q0 ∨ 0 < edgeCross q0 q1 ∨ 0 < edgeCross q1 q2 := by
    by_contra hc
    push_neg at hc
    linarith [hc.1, hc.2.1, hc.2.2]
  rcases hone with h1 | h2 | h3
  · exact lt_of_lt_of_le (edgeDD_pos_of_cross_pos _ _ h1)
      (le_trans (le_max_left _ _) (le_max_left _ _))
  · exact lt_of_lt_of_le (edgeDD_pos_of_cross_pos _ _ h2)
      (le_trans (le_max_right _ _) (le_max_left _ _))
  · exact lt_of_lt_of_le (edgeDD_pos_of_cross_pos _ _ h3) (le_max_right _ _)

/-- Against the initial face built from three of its own points, every point
of a coplanar-but-not-degenerate input categorizes as `EXTEND`: the signed
distance is exactly zero and the in-plane edge maximum is positive (the area
accumulator equals `Norm c > 0`). -/
lemma categorize_coplanar_extend (v0 v1 v2 pt n₀ : V3) (d₀ : ℝ)
    (hn₀ : n₀ ≠ ⟨0, 0, 0⟩)
    (hc : Cross (v1.sub v0) (v2.sub v1) ≠ ⟨0, 0, 0⟩)
    (h0 : Dot v0 n₀ = d₀) (h1 : Dot v1 n₀ = d₀) (h2 : Dot v2 n₀ = d₀)
    (hp : Dot pt n₀ = d₀) :
    Categorize ⟨[v0, v1, v2], PlaneNorm v0 v1 v2,
        (BasisVectors (PlaneNorm v0 v1 v2)).1,
        (BasisVectors (PlaneNorm v0 v1 v2)).2⟩ pt = Cat.EXTEND := by
  set c := Cross (v1.sub v0) (v2.sub v1) with hcdef
  set nrm := PlaneNorm v0 v1 v2 with hnrmdef
  set xx := (BasisVectors nrm).1 with hxxdef
  set yy := (BasisVectors nrm).2 with hyydef
  have hnrmc : nrm = Normalize c := rfl
  have hunit : Dot nrm nrm = 1 := by
    rw [hnrmc]
    exact normalize_dot_self hc
  have hxy : Cross xx yy = nrm := basisVectors_cross nrm hunit
  have hdist0 : Dot (V3.sub v2 pt) nrm = 0 := by
    have hperp : Dot (v2.sub pt) c = 0 := by
      rw [hcdef]
      apply dot_cross_zero_of_orth _ _ _ n₀ hn₀
      · rw [dot_sub_left, h1, h0]
        ring
      · rw [dot_sub_left, h2, h1]
        ring
      · rw [dot_sub_left, h2, hp]
        ring
    rw [hnrmc, normalize_eq_smul c hc, dot_comm, dot_smul_left, dot_comm c _, hperp, mul_zero]
  have hareaval : edgeCross (chProj xx yy pt v2) (chProj xx yy pt v0)
      + (edgeCross (chProj xx yy pt v0) (chProj xx yy pt v1)
      + (edgeCross (chProj xx yy pt v1) (chProj xx yy pt v2) + 0)) = Norm c := by
    rw [categorize_area_eq, hxy, ← hcdef, hnrmc]
    exact normalize_dot_base hc
  have hsumpos : 0 < edgeCross (chProj xx yy pt v2) (chProj xx yy pt v0)
      + (edgeCross (chProj xx yy pt v0) (chProj xx yy pt v1)
      + (edgeCross (chProj xx yy pt v1) (chProj xx yy pt v2) + 0)) := by
    rw [hareaval]
    exact norm_pos_of_ne_zero hc
  have hmxpos : 0 < max (max (edgeDD (chProj xx yy pt v2) (chProj xx yy pt v0))
        (edgeDD (chProj xx yy pt v0) (chProj xx yy pt v1)))
      (edgeDD (chProj xx yy pt v1) (chProj xx yy pt v2)) :=
    listMax_dd_pos _ _ _ hsumpos
  show
    (let A0 := chProj xx yy pt v0
     let A1 := chProj xx yy pt v1
     let A2 := chProj xx yy pt v2
     let dist := Dot (V3.sub v2 pt) nrm
     let area := edgeCross A2 A0 + (edgeCross A0 A1 + (edgeCross A1 A2 + 0))
     let mx := max (max (edgeDD A2 A0) (edgeDD A0 A1)) (edgeDD A1 A2)
     let tol := 1e-5 * Real.sqrt |area|
     if mx > 0 then
       if |dist| < tol ∨ |dist| < 1e-5 * mx then Cat.EXTEND
       else if dist > 0 then Cat.DELETE
       else Cat.PRESENT
     else if dist > tol then Cat.DELETE
     else if (dist + tol) * (dist + tol) + mx * mx < 4 * tol * tol then Cat.EXTEND
     else Cat.PRESENT) = Cat.EXTEND
  simp only []
  have hcond : |Dot (V3.sub v2 pt) nrm| <
      1e-5 * max (max (edgeDD (chProj xx yy pt v2) (chProj xx yy pt v0))
          (edgeDD (chProj xx yy pt v0) (chProj xx yy pt v1)))
        (edgeDD (chProj xx yy pt v1) (chProj xx yy pt v2)) := by
    rw [hdist0, abs_zero]
    exact mul_pos (by norm_num) hmxpos
  rw [if_pos hmxpos, if_pos (Or.inr hcond)]

/-- Witness for C8 at a concrete vertex list: a list with 2 stored vertices
accepts indices 0, 2 (the sentinel) and rejects 3. -/
theorem vertexList_AddIndex_spec_witness :
    ((0 : Nat) ≤ NumVert ⟨[[1], [2]], []⟩ ∧
      LP_VertexList_AddIndex ⟨[[1], [2]], []⟩ 0 = some (0, ⟨[[1], [2]], [0]⟩)) ∧
    ((2 : Nat) ≤ NumVert ⟨[[1], [2]], []⟩ ∧
      LP_VertexList_AddIndex ⟨[[1], [2]], []⟩ 2 = some (2, ⟨[[1], [2]], [2]⟩)) ∧
    LP_VertexList_AddIndex ⟨[[1], [2]], []⟩ 3 = none := by
  refine ⟨⟨by decide, ?_⟩, ⟨by decide, ?_⟩, ?_⟩
  · exact (vertexList_AddIndex_spec ⟨[[1], [2]], []⟩ 0).2 (by decide)
  · exact (vertexList_AddIndex_spec ⟨[[1], [2]], []⟩ 2).2 (by decide)
  · exact ((vertexList_AddIndex_spec ⟨[[1], [2]], []⟩ 3).1).mpr (by decide)

/-! ### C3: degenerate inputs make `LP_ConvexHull` fail -/

/-- All input points lie on one line. -/
def Colinear (data : List V3) : Prop :=
  ∃ a d : V3, ∀ p ∈ data, ∃ t : ℝ, p = a.add (V3.smul t d)

/-- All input points lie on one plane (with a genuine normal). -/
def Coplanar (data : List V3) : Prop :=
  ∃ (nrm : V3) (off : ℝ), nrm ≠ ⟨0, 0, 0⟩ ∧ ∀ p ∈ data, Dot p nrm = off

lemma exists_perp (v : V3) (h : v ≠ ⟨0, 0, 0⟩) :
    ∃ n : V3, n ≠ ⟨0, 0, 0⟩ ∧ Dot v n = 0 := by
  rcases (v3_ne_zero_iff v).mp h with hx | hy | hz
  · exact ⟨⟨-v.y, v.x, 0⟩, (v3_ne_zero_iff _).mpr (Or.inr (Or.inl hx)),
      by simp only [Dot]; ring⟩
  · exact ⟨⟨v.y, -v.x, 0⟩, (v3_ne_zero_iff _).mpr (Or.inl hy),
      by simp only [Dot]; ring⟩
  · exact ⟨⟨0, v.z, -v.y⟩, (v3_ne_zero_iff _).mpr (Or.inr (Or.inl hz)),
      by simp only [Dot]; ring⟩

/-- Any two vectors in `ℝ³` have a common nonzero normal. -/
lemma exists_common_perp (u w : V3) :
    ∃ n : V3, n ≠ ⟨0, 0, 0⟩ ∧ Dot u n = 0 ∧ Dot w n = 0 := by
  by_cases hcr : Cross u w = ⟨0, 0, 0⟩
  · by_cases hu : u = ⟨0, 0, 0⟩
    · by_cases hw : w = ⟨0, 0, 0⟩
      · exact ⟨⟨1, 0, 0⟩, (v3_ne_zero_iff _).mpr (Or.inl one_ne_zero),
          by rw [hu]; simp [Dot], by rw [hw]; simp [Dot]⟩
      · obtain ⟨n, hn, hdw⟩ := exists_perp w hw
        exact ⟨n, hn, by rw [hu]; simp [Dot], hdw⟩
    · obtain ⟨n, hn, hdu⟩ := exists_perp u hu
      refine ⟨n, hn, hdu, ?_⟩
      have hco := triple_prod_left u w u
      rw [hcr] at hco
      have h0 : Cross (⟨0, 0, 0⟩ : V3) u = ⟨0, 0, 0⟩ := by
        simp [Cross]
      rw [h0] at hco
      have ex := congrArg V3.x hco.symm
      have ey := congrArg V3.y hco.symm
      have ez := congrArg V3.z hco.symm
      simp only [V3.smul, V3.sub] at ex ey ez
      have hkey : Dot w n * Dot u u = Dot u w * Dot u n := by
        simp only [Dot] at *
        linear_combination n.x * ex + n.y * ey + n.z * ez
      rw [hdu, mul_zero] at hkey
      exact (mul_eq_zero.mp hkey).resolve_right (dot_self_pos hu).ne'
  · exact ⟨Cross u w, hcr, by rw [dot_comm]; exact dot_cross_left u w,
      by rw [dot_comm]; exact dot_cross_right u w⟩

/-- A data set with at most three distinct values is coplanar. -/
lemma coplanar_of_three (data : List V3) (a b c : V3)
    (h : ∀ p ∈ data, p = a ∨ p = b ∨ p = c) : Coplanar data := by
  obtain ⟨n, hn, hbu, hcu⟩ := exists_common_perp (b.sub a) (c.sub a)
  rw [dot_sub_left] at hbu hcu
  refine ⟨n, Dot a n, hn, fun p hp => ?_⟩
  rcases h p hp with rfl | rfl | rfl
  · rfl
  · linarith
  · linarith

/-- If every scanned point categorizes as `EXTEND`, the classification loop
touches only the middle (`pool`) list. -/
lemma classifyScan_all_extend (face : CHFace) (i1 i2 i3 : Nat) (l : List V3)
    (idx : Nat) (st : PointList × PointList × PointList)
    (h : ∀ p ∈ l, Categorize face p = Cat.EXTEND) :
    (classifyScan face i1 i2 i3 l idx st).1 = st.1 ∧
      (classifyScan face i1 i2 i3 l idx st).2.2 = st.2.2 := by
  induction l generalizing idx st with
  | nil => exact ⟨rfl, rfl⟩
  | cons p rest ih =>
    have hrest : ∀ q ∈ rest, Categorize face q = Cat.EXTEND :=
      fun q hq => h q (List.mem_cons_of_mem p hq)
    have hp := h p (List.mem_cons_self p rest)
    simp only [classifyScan]
    by_cases hskip : idx = i1 ∨ idx = i2 ∨ idx = i3
    · rw [if_pos hskip]
      exact ih _ _ hrest
    · rw [if_neg hskip, hp]
      exact ih _ _ hrest

/-- If every point categorizes as `EXTEND`, the `below` list surviving the
flip step is empty (both candidate lists stayed at their zeroed state). -/
lemma initFlip_below_empty (face : CHFace) (i1 i2 i3 : Nat) (data : List V3)
    (hext : ∀ p ∈ data, Categorize face p = Cat.EXTEND) :
    (initFlip face (initClassify data face i1 i2 i3).1
        (initClassify data face i1 i2 i3).2.2).2.2.items = [] := by
  obtain ⟨h1, h2⟩ := classifyScan_all_extend face i1 i2 i3 data 0
    (PointList.empty, PointList.empty, PointList.empty) hext
  have h1' : (classifyScan face i1 i2 i3 data 0
      (PointList.empty, PointList.empty, PointList.empty)).1 = PointList.empty := h1
  have h2' : (classifyScan face i1 i2 i3 data 0
      (PointList.empty, PointList.empty, PointList.empty)).2.2 = PointList.empty := h2
  simp only [initClassify, initFlip]
  rw [h1', h2']
  split_ifs <;> rfl

/-- `InitSimplex` fails at the zero-normal check when the cross product of
the selected triangle's edges is zero. -/
lemma initSimplex_none_of_cross_zero (data : List V3) (hlen : ¬ data.length < 4)
    (hz : Cross ((data.getD (minMaxX data).2 ⟨0, 0, 0⟩).sub
          (data.getD (minMaxX data).1 ⟨0, 0, 0⟩))
        ((data.getD (ddIdx data (data.getD (minMaxX data).1 ⟨0, 0, 0⟩)
            (data.getD (minMaxX data).2 ⟨0, 0, 0⟩)) ⟨0, 0, 0⟩).sub
          (data.getD (minMaxX data).2 ⟨0, 0, 0⟩)) = ⟨0, 0, 0⟩) :
    InitSimplex data = none := by
  have hz2 : Norm2 (PlaneNorm (data.getD (minMaxX data).1 ⟨0, 0, 0⟩)
      (data.getD (minMaxX data).2 ⟨0, 0, 0⟩)
      (data.getD (ddIdx data (data.getD (minMaxX data).1 ⟨0, 0, 0⟩)
        (data.getD (minMaxX data).2 ⟨0, 0, 0⟩)) ⟨0, 0, 0⟩)) = 0 := by
    simp only [PlaneNorm]
    rw [hz, normalize_zero]
    exact norm2_zero
  simp only [InitSimplex]
  rw [if_neg hlen, if_pos hz2]

/-- `InitSimplex` fails at the empty-`below` check when the selected
triangle is nondegenerate but every point categorizes as `EXTEND`. -/
lemma initSimplex_none_of_all_extend (data : List V3) (hlen : ¬ data.length < 4)
    (hcz : Cross ((data.getD (minMaxX data).2 ⟨0, 0, 0⟩).sub
          (data.getD (minMaxX data).1 ⟨0, 0, 0⟩))
        ((data.getD (ddIdx data (data.getD (minMaxX data).1 ⟨0, 0, 0⟩)
            (data.getD (minMaxX data).2 ⟨0, 0, 0⟩)) ⟨0, 0, 0⟩).sub
          (data.getD (minMaxX data).2 ⟨0, 0, 0⟩)) ≠ ⟨0, 0, 0⟩)
    (hext : ∀ p ∈ data,
      Categorize ⟨[data.getD (minMaxX data).1 ⟨0, 0, 0⟩,
          data.getD (minMaxX data).2 ⟨0, 0, 0⟩,
          data.getD (ddIdx data (data.getD (minMaxX data).1 ⟨0, 0, 0⟩)
            (data.getD (minMaxX data).2 ⟨0, 0, 0⟩)) ⟨0, 0, 0⟩],
        PlaneNorm (data.getD (minMaxX data).1 ⟨0, 0, 0⟩)
          (data.getD (minMaxX data).2 ⟨0, 0, 0⟩)
          (data.getD (ddIdx data (data.getD (minMaxX data).1 ⟨0, 0, 0⟩)
            (data.getD (minMaxX data).2 ⟨0, 0, 0⟩)) ⟨0, 0, 0⟩),
        (BasisVectors (PlaneNorm (data.getD (minMaxX data).1 ⟨0, 0, 0⟩)
          (data.getD (minMaxX data).2 ⟨0, 0, 0⟩)
          (data.getD (ddIdx data (data.getD (minMaxX data).1 ⟨0, 0, 0⟩)
            (data.getD (minMaxX data).2 ⟨0, 0, 0⟩)) ⟨0, 0, 0⟩))).1,
        (BasisVectors (PlaneNorm (data.getD (minMaxX data).1 ⟨0, 0, 0⟩)
          (data.getD (minMaxX data).2 ⟨0, 0, 0⟩)
          (data.getD (ddIdx data (data.getD (minMaxX data).1 ⟨0, 0, 0⟩)
            (data.getD (minMaxX data).2 ⟨0, 0, 0⟩)) ⟨0, 0, 0⟩))).2⟩ p = Cat.EXTEND) :
    InitSimplex data = none := by
  have hunit : Norm2 (PlaneNorm (data.getD (minMaxX data).1 ⟨0, 0, 0⟩)
      (data.getD (minMaxX data).2 ⟨0, 0, 0⟩)
      (data.getD (ddIdx data (data.getD (minMaxX data).1 ⟨0, 0, 0⟩)
        (data.getD (minMaxX data).2 ⟨0, 0, 0⟩)) ⟨0, 0, 0⟩)) = 1 :=
    normalize_dot_self hcz
  have hnz : ¬ Norm2 (PlaneNorm (data.getD (minMaxX data).1 ⟨0, 0, 0⟩)
      (data.getD (minMaxX data).2 ⟨0, 0, 0⟩)
      (data.getD (ddIdx data (data.getD (minMaxX data).1 ⟨0, 0, 0⟩)
        (data.getD (minMaxX data).2 ⟨0, 0, 0⟩)) ⟨0, 0, 0⟩)) = 0 := by
    rw [hunit]
    norm_num
  have hempty := initFlip_below_empty _ (minMaxX data).1 (minMaxX data).2
    (ddIdx data (data.getD (minMaxX data).1 ⟨0, 0, 0⟩)
      (data.getD (minMaxX data).2 ⟨0, 0, 0⟩)) data hext
  simp only [InitSimplex]
  rw [if_neg hlen, if_neg hnz, if_pos hempty]

lemma coplanar_of_colinear (data : List V3) (h : Colinear data) : Coplanar data := by
  obtain ⟨a, d, hall⟩ := h
  obtain ⟨n, hn, hdn, -⟩ := exists_common_perp d d
  refine ⟨n, Dot a n, hn, fun p hp => ?_⟩
  obtain ⟨t, rfl⟩ := hall p hp
  simp only [Dot, V3.add, V3.smul] at hdn ⊢
  linear_combination t * hdn

lemma initSimplex_none_of_coplanar (data : List V3) (h : Coplanar data) :
    InitSimplex data = none := by
  obtain ⟨n₀, d₀, hn₀, hall⟩ := h
  by_cases hlen : data.length < 4
  · simp only [InitSimplex]
    rw [if_pos hlen]
  · have hne : data ≠ [] := by
      intro he
      rw [he] at hlen
      exact hlen (by norm_num)
    obtain ⟨hmn, hmx⟩ := minMaxX_lt hne
    by_cases hcz : Cross ((data.getD (minMaxX data).2 ⟨0, 0, 0⟩).sub
          (data.getD (minMaxX data).1 ⟨0, 0, 0⟩))
        ((data.getD (ddIdx data (data.getD (minMaxX data).1 ⟨0, 0, 0⟩)
            (data.getD (minMaxX data).2 ⟨0, 0, 0⟩)) ⟨0, 0, 0⟩).sub
          (data.getD (minMaxX data).2 ⟨0, 0, 0⟩)) = ⟨0, 0, 0⟩
    · exact initSimplex_none_of_cross_zero data hlen hcz
    · apply initSimplex_none_of_all_extend data hlen hcz
      intro p hp
      exact categorize_coplanar_extend _ _ _ p n₀ d₀ hn₀ hcz
        (hall _ (getD_mem_v3 hmn _)) (hall _ (getD_mem_v3 hmx _))
        (hall _ (getD_mem_v3 (ddIdx_lt hne _ _) _)) (hall _ hp)

/-- C3: `LP_ConvexHull` fails — produces `none` however the post-`InitSimplex`
pipeline `rest` would behave — when the input has fewer than 4 points, when it
has fewer than 4 distinct points, when all points are colinear, and when all
points are coplanar. `InitSimplex` rejects these at its length check, its
zero-normal check (degenerate initial triangle), or its empty-`below` check
(every point classifies `EXTEND` against the initial triangle). -/
theorem convexHull_degenerate_fails {α : Type} (rest : InitState → Option α)
    (data : List V3) :
    (data.length < 4 → LP_ConvexHull rest data = none) ∧
    ((∃ a b c : V3, ∀ p ∈ data, p = a ∨ p = b ∨ p = c) →
      LP_ConvexHull rest data = none) ∧
    (Colinear data → LP_ConvexHull rest data = none) ∧
    (Coplanar data → LP_ConvexHull rest data = none) := by
  have hLP : InitSimplex data = none → LP_ConvexHull rest data = none := by
    intro h
    simp only [LP_ConvexHull, h]
  refine ⟨fun h4 => hLP ?_, fun h3 => ?_, fun hcol => ?_, fun hcop => ?_⟩
  · simp only [InitSimplex]
    rw [if_pos h4]
  · obtain ⟨a, b, c, hdist3⟩ := h3
    exact hLP (initSimplex_none_of_coplanar data (coplanar_of_three data a b c hdist3))
  · exact hLP (initSimplex_none_of_coplanar data (coplanar_of_colinear data hcol))
  · exact hLP (initSimplex_none_of_coplanar data hcop)

/-- Witness for C3: the four coplanar points of the unit square's corners in
the `z = 0` plane make the hull fail. -/
theorem convexHull_degenerate_fails_witness :
    Coplanar [(⟨0, 0, 0⟩ : V3), ⟨1, 0, 0⟩, ⟨0, 1, 0⟩, ⟨1, 1, 0⟩] ∧
    LP_ConvexHull (fun st => some st)
      [(⟨0, 0, 0⟩ : V3), ⟨1, 0, 0⟩, ⟨0, 1, 0⟩, ⟨1, 1, 0⟩] = none := by
  have hcop : Coplanar [(⟨0, 0, 0⟩ : V3), ⟨1, 0, 0⟩, ⟨0, 1, 0⟩, ⟨1, 1, 0⟩] :=
    ⟨⟨0, 0, 1⟩, 0, (v3_ne_zero_iff _).mpr (Or.inr (Or.inr one_ne_zero)),
      by intro p hp; fin_cases hp <;> norm_num [Dot]⟩
  exact ⟨hcop, (convexHull_degenerate_fails (fun st => some st) _).2.2.2 hcop⟩

/-! ### C4: the flip step of `InitSimplex` -/

/-- C4 (amended): the flip step swaps the two collections, swaps the face's
first two ring vertices, and negates its normal exactly when the "above"
collection's furthest point (the cached `max_dist` of the `DELETE` list)
strictly exceeds the "below" collection's; otherwise face and collections are
returned unchanged. -/
theorem initFlip_characterization (a b : V3) (restL : List V3) (n xx yy : V3)
    (fpts below : PointList) :
    initFlip ⟨a :: b :: restL, n, xx, yy⟩ fpts below =
      if below.maxDist < fpts.maxDist
      then (⟨b :: a :: restL, n.neg, xx, yy⟩, below, fpts)
      else (⟨a :: b :: restL, n, xx, yy⟩, fpts, below) := by
  rfl

/-- C4 counterexample: when the below collection is strictly deeper than the
above collection (`2 > 1`), the claim's trigger ("below exceeds above")
holds, yet `initFlip` returns face and collections untouched — and an actual
flip would have been visible (the flipped face differs). The code flips on
the opposite comparison (`face->pts->max_dist > below->max_dist`,
convex_hull.c:990). -/
theorem initFlip_claim_counterexample :
    (⟨[6], 2⟩ : PointList).maxDist > (⟨[5], 1⟩ : PointList).maxDist ∧
    initFlip ⟨[⟨0, 0, 0⟩, ⟨1, 0, 0⟩, ⟨0, 1, 0⟩], ⟨0, 0, 1⟩, ⟨1, 0, 0⟩, ⟨0, 1, 0⟩⟩
        ⟨[5], 1⟩ ⟨[6], 2⟩ =
      (⟨[⟨0, 0, 0⟩, ⟨1, 0, 0⟩, ⟨0, 1, 0⟩], ⟨0, 0, 1⟩, ⟨1, 0, 0⟩, ⟨0, 1, 0⟩⟩,
        ⟨[5], 1⟩, ⟨[6], 2⟩) ∧
    chFlip ⟨[⟨0, 0, 0⟩, ⟨1, 0, 0⟩, ⟨0, 1, 0⟩], ⟨0, 0, 1⟩, ⟨1, 0, 0⟩, ⟨0, 1, 0⟩⟩ ≠
      ⟨[⟨0, 0, 0⟩, ⟨1, 0, 0⟩, ⟨0, 1, 0⟩], ⟨0, 0, 1⟩, ⟨1, 0, 0⟩, ⟨0, 1, 0⟩⟩ := by
  refine ⟨by norm_num, ?_, ?_⟩
  · simp only [initFlip]
    rw [if_neg (by norm_num)]
  · intro h
    have hz := congrArg (fun f => f.norm.z) h
    simp only [chFlip, V3.neg] at hz
    norm_num at hz

/-! ### C6: `LP_PlaneCut` fails as a whole when the 2D triangulation fails

Control-flow skeleton of `LP_PlaneCut` (`src/lib/plane_cut.c`). The shape
state `σ` and the polyhedron type `π` are abstract; the fallible
subroutines are parameters:

* `triangulate sh side` — `LP_Triangulate2D(shape[s_count]->poly2d)`,
  returning the cap triangles or `none` on failure;
* `addTris sh side tri` — the `Make_Face_From_2d` loop over the cap
  triangles (a `< 0` return is `goto err5`, an immediate hard failure);
* `components sh side` — the hash-iterator walk that builds one `poly3d`
  per unvisited face and appends it to `out` (allocation failures there are
  `goto err6`/`err7`, again immediate hard failures).

The distinguishing behaviour under test: a `triangulate` failure does NOT
jump out; it clears `valid` and lets the loop keep appending components to
`out`, and only the final `if (!valid) goto err4` discards `out` and makes
the function return `NULL`. -/

/-- The fallible subroutines of `LP_PlaneCut`, abstracted. -/
structure PCEnv (σ π : Type) where
  triangulate : σ → Nat → Option (List π)
  addTris : σ → Nat → List π → Option σ
  components : σ → Nat → Option (List π)

/-- One iteration of the `for (s_count = 0; s_count < 2; ...)` loop: state is
`(shapes, out, valid)`; `none` models the hard-failure `goto`s. -/
def cutSide {σ π : Type} (env : PCEnv σ π) (st : σ × List π × Bool)
    (side : Nat) : Option (σ × List π × Bool) :=
  match env.triangulate st.1 side with
  | none =>
    match env.components st.1 side with
    | none => none
    | some polys => some (st.1, st.2.1 ++ polys, false)
  | some tri =>
    match env.addTris st.1 side tri with
    | none => none
    | some sh2 =>
      match env.components sh2 side with
      | none => none
      | some polys => some (sh2, st.2.1 ++ polys, st.2.2)

/-- `LP_PlaneCut`: the float-stride and primitive-type prechecks, the
`Make_Faces`/`AddEdge2d` prologue (its result, or its failure, passed in as
`mkShapes`), the two loop iterations, and the final `valid` gate. -/
def LP_PlaneCut {σ π : Type} (env : PCEnv σ π) (floatsPerVert : Nat)
    (isTriangle : Bool) (mkShapes : Option σ) : Option (List π) :=
  if floatsPerVert < 3 then none
  else if ¬ isTriangle then none
  else
    match mkShapes with
    | none => none
    | some sh0 =>
      match cutSide env (sh0, [], true) 0 with
      | none => none
      | some st1 =>
        match cutSide env st1 1 with
        | none => none
        | some st2 => if st2.2.2 then some st2.2.1 else none

lemma cutSide_false_absorbing {σ π : Type} (env : PCEnv σ π)
    (st st' : σ × List π × Bool) (side : Nat)
    (h : cutSide env st side = some st') (hv : st.2.2 = false) :
    st'.2.2 = false := by
  unfold cutSide at h
  split at h
  · split at h
    · exact absurd h (by simp)
    · cases h
      rfl
  · split at h
    · exact absurd h (by simp)
    · split at h
      · exact absurd h (by simp)
      · cases h
        exact hv

lemma cutSide_tri_fail_valid {σ π : Type} (env : PCEnv σ π)
    (st st' : σ × List π × Bool) (side : Nat)
    (h : cutSide env st side = some st') (htri : env.triangulate st.1 side = none) :
    st'.2.2 = false := by
  unfold cutSide at h
  split at h
  · split at h
    · exact absurd h (by simp)
    · cases h
      rfl
  · rename_i tri heq
    rw [htri] at heq
    exact absurd heq (by simp)

/-- C6: if `LP_Triangulate2D` fails for side 0, or for side 1 of the state
that reaches it, `LP_PlaneCut` as a whole returns `none` — no partial output
is emitted even though the loop keeps building components after clearing
`valid`. (The embedding is purely functional, so the input vertex list is
untouched by construction; the C code's frees are the discarding modelled by
returning `none`.) -/
theorem planeCut_triangulation_failure {σ π : Type} (env : PCEnv σ π)
    (floatsPerVert : Nat) (isTriangle : Bool) (sh0 : σ) :
    (env.triangulate sh0 0 = none →
      LP_PlaneCut env floatsPerVert isTriangle (some sh0) = none) ∧
    (∀ st1, cutSide env (sh0, [], true) 0 = some st1 →
      env.triangulate st1.1 1 = none →
      LP_PlaneCut env floatsPerVert isTriangle (some sh0) = none) := by
  constructor
  · intro htri
    unfold LP_PlaneCut
    split_ifs with h1 h2
    all_goals try rfl
    rcases h0 : cutSide env (sh0, [], true) 0 with - | st1
    · simp [h0]
    · have hv1 : st1.2.2 = false := cutSide_tri_fail_valid env _ _ 0 h0 htri
      rcases hs1 : cutSide env st1 1 with - | st2
      · simp [h0, hs1]
      · have hv2 : st2.2.2 = false := cutSide_false_absorbing env _ _ 1 hs1 hv1
        simp [h0, hs1, hv2]
  · intro st1 h0 htri
    unfold LP_PlaneCut
    split_ifs with h1 h2
    all_goals try rfl
    rcases hs1 : cutSide env st1 1 with - | st2
    · simp [h0, hs1]
    · have hv2 : st2.2.2 = false := cutSide_tri_fail_valid env _ _ 1 hs1 htri
      simp [h0, hs1, hv2]

/-- Witness for C6: a two-point environment where side 0's triangulation
fails while component building succeeds; the cut returns `none`. -/
theorem planeCut_triangulation_failure_witness :
    (PCEnv.mk (fun _ _ => (none : Option (List Unit)))
        (fun (_ : Unit) _ _ => some ()) (fun _ _ => some [])).triangulate () 0
        = none ∧
    LP_PlaneCut (PCEnv.mk (fun _ _ => (none : Option (List Unit)))
        (fun (_ : Unit) _ _ => some ()) (fun _ _ => some []))
      3 true (some ()) = none :=
  ⟨rfl, (planeCut_triangulation_failure _ 3 true ()).1 rfl⟩

/-! ### C7: `LP_Simplify` face-count contract (`src/lib/simplify.c`)

The quadric-error machinery of the pair pipeline, translated from the
source: `CalcKp` (plane quadric of a face; `Face_Cannonize` only rotates the
ring, which leaves the plane and hence `Kp` unchanged), `CalcCost`,
`Solve3x3` (`src/unnamed/part_009`), `CalcLowestCost` (optimal `vbar`, or
the best of endpoint/midpoint when the system is singular), per-vertex
quadric accumulation (`Face_New` adds `Kp` to each slot's vertex),
`AllowedContraction` (a contraction is vetoed when replacing an endpoint by
`vbar` inverts the normal of a surviving incident face), `Add_Pairs` (one
pair per undirected face edge), and the `Contract_Pair` search loop
(`FTree_Lowest`, the `isinf` failure, and rekeying vetoed pairs to
infinity, modelled as key `none`). Hash/tree iteration order is
pointer-dependent in the C code; the model fixes list order and first-lowest
tie-breaking, and the facts proved below are insensitive to that choice
(every pair ends up vetoed). -/

/-- A 10-entry quadric (`float Q[10]`, upper triangle of the 4x4 form). -/
structure Q10 where
  q0 : ℝ
  q1 : ℝ
  q2 : ℝ
  q3 : ℝ
  q4 : ℝ
  q5 : ℝ
  q6 : ℝ
  q7 : ℝ
  q8 : ℝ
  q9 : ℝ

/-- The zeroed quadric (`memset` in `Vert_New`). -/
def Q10.zero : Q10 := ⟨0, 0, 0, 0, 0, 0, 0, 0, 0, 0⟩

/-- Entrywise sum (`Q[count] += ...`). -/
def Q10.add (x y : Q10) : Q10 :=
  ⟨x.q0 + y.q0, x.q1 + y.q1, x.q2 + y.q2, x.q3 + y.q3, x.q4 + y.q4,
    x.q5 + y.q5, x.q6 + y.q6, x.q7 + y.q7, x.q8 + y.q8, x.q9 + y.q9⟩

/-- `CalcKp`: the quadric of the face's plane `(a,b,c,d)` with
`(a,b,c) = PlaneNorm` and `d = -norm·vert0`. -/
noncomputable def CalcKp (p1 p2 p3 : V3) : Q10 :=
  let n := PlaneNorm p1 p2 p3
  let d := -(Dot n p1)
  ⟨n.x * n.x, n.x * n.y, n.x * n.z, n.x * d, n.y * n.y, n.y * n.z, n.y * d,
    n.z * n.z, n.z * d, d * d⟩

/-- `CalcCost`: `vbar^T Qbar vbar` in homogeneous coordinates. -/
def CalcCost (v : V3) (Q : Q10) : ℝ :=
  let p0 := Q.q0 * v.x + Q.q1 * v.y + Q.q2 * v.z + Q.q3
  let p1 := Q.q1 * v.x + Q.q4 * v.y + Q.q5 * v.z + Q.q6
  let p2 := Q.q2 * v.x + Q.q5 * v.y + Q.q7 * v.z + Q.q8
  let p3 := Q.q3 * v.x + Q.q6 * v.y + Q.q8 * v.z + Q.q9
  v.x * p0 + v.y * p1 + v.z * p2 + p3

/-- A 3x3 matrix in row-major order (`float mat[9]`). -/
structure M33 where
  m00 : ℝ
  m01 : ℝ
  m02 : ℝ
  m10 : ℝ
  m11 : ℝ
  m12 : ℝ
  m20 : ℝ
  m21 : ℝ
  m22 : ℝ

/-- `Solve3x3` (`util.c`): adjugate solve, failing exactly on `det == 0`. -/
noncomputable def Solve3x3 (m : M33) (bb : V3) : Option V3 :=
  let a := m.m11 * m.m22 - m.m12 * m.m21
  let b := m.m10 * m.m22 - m.m12 * m.m20
  let c := m.m10 * m.m21 - m.m11 * m.m20
  let det := m.m00 * a - m.m01 * b + m.m02 * c
  if det = 0 then none
  else
    some ⟨(1 / det) * (bb.x * a - bb.y * (m.m01 * m.m22 - m.m02 * m.m21)
            + bb.z * (m.m01 * m.m12 - m.m02 * m.m11)),
          (1 / det) * (-(bb.x * b) + bb.y * (m.m00 * m.m22 - m.m02 * m.m20)
            - bb.z * (m.m00 * m.m12 - m.m02 * m.m10)),
          (1 / det) * (bb.x * c - bb.y * (m.m00 * m.m21 - m.m01 * m.m20)
            + bb.z * (m.m00 * m.m11 - m.m01 * m.m10))⟩

/-- `CalcLowestCost`: returns `(cost, vbar)`. On a singular system the
fallback picks the cheapest of endpoint 0, endpoint 1, and the midpoint,
with the code's exact tie-breaking. -/
noncomputable def CalcLowestCost (Qa Qb : Q10) (va vb : V3) : ℝ × V3 :=
  let Q := Qa.add Qb
  let m : M33 := ⟨Q.q0, Q.q1, Q.q2, Q.q1, Q.q4, Q.q5, Q.q2, Q.q5, Q.q7⟩
  let bb : V3 := ⟨-Q.q3, -Q.q6, -Q.q8⟩
  match Solve3x3 m bb with
  | some sol => (CalcCost sol Q, sol)
  | none =>
    let mid := V3.smul (1 / 2) (va.add vb)
    let a := CalcCost va Q
    let b := CalcCost vb Q
    let c := CalcCost mid Q
    if a ≤ b then
      if c ≤ a then (c, mid) else (a, va)
    else
      if c ≤ b then (c, mid) else (b, vb)

/-- A triangle as indices into the vertex list. -/
abbrev Tri : Type := Nat × Nat × Nat

/-- The accumulated quadric of vertex `i`: every face adds its `Kp` once per
slot holding `i` (`Face_New`). -/
noncomputable def vertQ (verts : List V3) (faces : List Tri) (i : Nat) : Q10 :=
  faces.foldl (fun acc f =>
    let k := CalcKp (verts.getD f.1 ⟨0, 0, 0⟩) (verts.getD f.2.1 ⟨0, 0, 0⟩)
      (verts.getD f.2.2 ⟨0, 0, 0⟩)
    let acc := if f.1 = i then acc.add k else acc
    let acc := if f.2.1 = i then acc.add k else acc
    if f.2.2 = i then acc.add k else acc) Q10.zero

/-- The per-face normal-inversion test of `AllowedContraction`: the face is
skipped when it contains `b` (it will be removed by the contraction);
otherwise the slot holding `a` is replaced by `vbar` and the new plane
normal is compared against the old one. -/
noncomputable def faceFlip (verts : List V3) (vbar : V3) (a b : Nat) (f : Tri) : Prop :=
  if f.1 = b ∨ f.2.1 = b ∨ f.2.2 = b then False
  else
    let v0 := verts.getD f.1 ⟨0, 0, 0⟩
    let v1 := verts.getD f.2.1 ⟨0, 0, 0⟩
    let v2 := verts.getD f.2.2 ⟨0, 0, 0⟩
    let orig := PlaneNorm v0 v1 v2
    if f.1 = a then Dot (PlaneNorm vbar v1 v2) orig < 0
    else if f.2.1 = a then Dot (PlaneNorm v0 vbar v2) orig < 0
    else if f.2.2 = a then Dot (PlaneNorm v0 v1 vbar) orig < 0
    else False

/-- `AllowedContraction`: no incident surviving face of either endpoint has
its normal inverted by the move to `vbar`. -/
def AllowedContraction (verts : List V3) (faces : List Tri) (i j : Nat)
    (vbar : V3) : Prop :=
  ∀ f ∈ faces, ¬ faceFlip verts vbar i j f ∧ ¬ faceFlip verts vbar j i f

/-- A pair record: endpoints, cached `vbar`, and the tree key (`none` models
the `INFINITY` rekey of a vetoed pair). -/
structure SimpPair where
  i : Nat
  j : Nat
  vbar : V3
  key : Option ℝ

/-- The three directed edges of a face walked by `Add_Pairs`. -/
def edgePairs (f : Tri) : List (Nat × Nat) := [(f.1, f.2.1), (f.2.1, f.2.2), (f.2.2, f.1)]

/-- `Add_Pairs`: one pair per undirected face edge (the `pair_hash` lookup
skips an edge already seen in either direction), with cost and `vbar` from
`CalcLowestCost` at creation (`Pair_New`). -/
noncomputable def mkPairs (verts : List V3) (faces : List Tri) : List SimpPair :=
  faces.foldl (fun acc f =>
    (edgePairs f).foldl (fun acc e =>
      if acc.any (fun p => (p.i == e.1 && p.j == e.2) || (p.i == e.2 && p.j == e.1))
      then acc
      else
        let cv := CalcLowestCost (vertQ verts faces e.1) (vertQ verts faces e.2)
          (verts.getD e.1 ⟨0, 0, 0⟩) (verts.getD e.2 ⟨0, 0, 0⟩)
        acc ++ [⟨e.1, e.2, cv.2, some cv.1⟩]) acc) []

/-- Strict order on tree keys with `none` as `+INFINITY`. -/
def keyLT : Option ℝ → Option ℝ → Prop
  | none, _ => False
  | some _, none => True
  | some x, some y => x < y

/-- Scan for the first lowest key (`FTree_Lowest`). -/
noncomputable def lowestAux : List SimpPair → Nat → Option ℝ × Nat → Option ℝ × Nat
  | [], _, best => best
  | p :: rest, idx, best =>
    lowestAux rest (idx + 1) (if keyLT p.key best.1 then (p.key, idx) else best)

/-- Index of the lowest-key pair, `none` on an empty tree. -/
noncomputable def lowestIdx (prs : List SimpPair) : Option Nat :=
  match prs with
  | [] => none
  | p :: rest => some (lowestAux rest 1 (p.key, 0)).2

/-- The search loop at the top of `Contract_Pair`: take the lowest pair;
fail if the tree is empty or the lowest key is infinite; accept an allowed
pair; otherwise rekey it to infinity and repeat. -/
noncomputable def contractSearch (allowed : SimpPair → Prop) :
    Nat → List SimpPair → Option SimpPair
  | 0, _ => none
  | fuel + 1, prs =>
    match lowestIdx prs with
    | none => none
    | some idx =>
      let p := prs.getD idx ⟨0, 0, ⟨0, 0, 0⟩, none⟩
      match p.key with
      | none => none
      | some _ =>
        if allowed p then some p
        else contractSearch allowed fuel (prs.set idx { p with key := none })

/-- The `while (Hash_NumEntries(faces) > num_faces_out)` loop of
`LP_Simplify`: each iteration attempts one contraction; on failure it
breaks and the current mesh is emitted as is. -/
def simplifyLoop {μ : Type} (numFaces : μ → Nat) (k : Nat)
    (tryContract : μ → Option μ) : Nat → μ → μ
  | 0, m => m
  | fuel + 1, m =>
    if numFaces m > k then
      match tryContract m with
      | none => m
      | some m2 => simplifyLoop numFaces k tryContract fuel m2
    else m

lemma getD_mem_of_lt {α : Type} {l : List α} {i : Nat} (h : i < l.length) (d : α) :
    l.getD i d ∈ l := by
  rw [List.getD_eq_getElem l d h]
  exact List.getElem_mem h

lemma lowestAux_lt (l : List SimpPair) (idx : Nat) (best : Option ℝ × Nat) (N : Nat)
    (h : best.2 < N) (hlen : idx + l.length ≤ N) :
    (lowestAux l idx best).2 < N := by
  induction l generalizing idx best with
  | nil => exact h
  | cons p rest ih =>
    simp only [lowestAux]
    simp only [List.length_cons] at hlen
    refine ih (idx + 1) _ ?_ (by omega)
    by_cases hk : keyLT p.key best.1 <;> simp [hk] <;> omega

lemma lowestIdx_lt {prs : List SimpPair} {idx : Nat}
    (h : lowestIdx prs = some idx) : idx < prs.length := by
  match prs with
  | [] => exact absurd h (by simp [lowestIdx])
  | p :: rest =>
    simp only [lowestIdx, Option.some.injEq] at h
    subst h
    simp only [List.length_cons]
    exact lowestAux_lt rest 1 (p.key, 0) (rest.length + 1) (Nat.succ_pos _) (by omega)

/-- If every pair in the tree is already infinite-keyed or vetoed, the
`Contract_Pair` search can only fail. -/
lemma contractSearch_none (allowed : SimpPair → Prop) (fuel : Nat)
    (prs : List SimpPair) (h : ∀ p ∈ prs, p.key = none ∨ ¬ allowed p) :
    contractSearch allowed fuel prs = none := by
  induction fuel generalizing prs with
  | zero => rfl
  | succ fuel ih =>
    unfold contractSearch
    rcases hlow : lowestIdx prs with - | idx
    · rfl
    · have hidx := lowestIdx_lt hlow
      have hmem := getD_mem_of_lt hidx (⟨0, 0, ⟨0, 0, 0⟩, none⟩ : SimpPair)
      rcases hkey : (prs.getD idx ⟨0, 0, ⟨0, 0, 0⟩, none⟩).key with - | c
      · simp only [hkey]
      · simp only [hkey]
        rcases h _ hmem with hk | hna
        · exact absurd hkey (by rw [hk]; simp)
        · rw [if_neg hna]
          apply ih
          intro q hq
          rcases List.mem_or_eq_of_mem_set hq with hq2 | hq2
          · exact h q hq2
          · left
            rw [hq2]

/-- The sign of a dot product is unchanged by normalizing both arguments. -/
lemma normalize_dot_sign (u v : V3) :
    Dot (Normalize u) (Normalize v) < 0 ↔ Dot u v < 0 := by
  by_cases hu : u = ⟨0, 0, 0⟩
  · subst hu
    rw [normalize_zero]
    simp [Dot]
  · by_cases hv : v = ⟨0, 0, 0⟩
    · subst hv
      rw [normalize_zero]
      simp [Dot]
    · rw [normalize_eq_smul u hu, normalize_eq_smul v hv, dot_smul_smul]
      have hp : 0 < (1 / Norm u) * (1 / Norm v) :=
        mul_pos (one_div_pos.mpr (norm_pos_of_ne_zero hu))
          (one_div_pos.mpr (norm_pos_of_ne_zero hv))
      constructor
      · intro h
        nlinarith
      · intro h
        exact mul_neg_of_pos_of_neg hp h

/-- Normal inversion can be read off the unnormalized cross products. -/
lemma planeNorm_dot_neg (p1 p2 p3 q1 q2 q3 : V3)
    (h : Dot (Cross (p2.sub p1) (p3.sub p2)) (Cross (q2.sub q1) (q3.sub q2)) < 0) :
    Dot (PlaneNorm p1 p2 p3) (PlaneNorm q1 q2 q3) < 0 := by
  simp only [PlaneNorm]
  exact (normalize_dot_sign _ _).mpr h

/-- C7 (amended): a terminating run of the simplification loop (any
measure decreasing across successful contractions, with enough fuel — in
the code, the pair count) ends with at most `k` faces, unless its final
contraction attempt failed, in which case the current mesh — possibly with
more than `k` faces — is emitted as is. -/
theorem simplify_face_bound {μ : Type} (numFaces : μ → Nat) (k : Nat)
    (tryContract : μ → Option μ) (meas : μ → Nat)
    (hmeas : ∀ m m2, tryContract m = some m2 → meas m2 < meas m)
    (fuel : Nat) (m : μ) (hfuel : meas m < fuel) :
    numFaces (simplifyLoop numFaces k tryContract fuel m) ≤ k ∨
      tryContract (simplifyLoop numFaces k tryContract fuel m) = none := by
  induction fuel generalizing m with
  | zero => omega
  | succ fuel ih =>
    unfold simplifyLoop
    by_cases hgt : numFaces m > k
    · rw [if_pos hgt]
      rcases htry : tryContract m with - | m2
    -- break: the loop emits the current mesh, whose contraction failed
      · exact Or.inr htry
      · exact ih m2 (by have := hmeas m m2 htry; omega)
    · rw [if_neg hgt]
      exact Or.inl (by omega)

/-- Witness for the amended C7 at a concrete terminating instance: counting
down from 2 with k = 0 reaches 0 ≤ 0. -/
theorem simplify_face_bound_witness :
    ((∀ m m2 : Nat, (fun n => match n with | 0 => none | n + 1 => some n) m = some m2 →
        m2 < m) ∧ (2 : Nat) < 4) ∧
    ((fun n : Nat => n) (simplifyLoop (fun n : Nat => n) 0
        (fun n => match n with | 0 => none | n + 1 => some n) 4 2) ≤ 0 ∨
      (fun n => match n with | 0 => none | n + 1 => some n)
        (simplifyLoop (fun n : Nat => n) 0
          (fun n => match n with | 0 => none | n + 1 => some n) 4 2) = none) := by
  have hmeas : ∀ m m2 : Nat,
      (fun n => match n with | 0 => none | n + 1 => some n) m = some m2 → m2 < m := by
    intro m m2 h
    match m with
    | 0 => exact absurd h (by simp)
    | n + 1 =>
      simp only [Option.some.injEq] at h
      omega
  exact ⟨⟨hmeas, by norm_num⟩,
    simplify_face_bound (fun n : Nat => n) 0 _ (fun n : Nat => n) hmeas 4 2 (by norm_num)⟩

/-! The pentagram hub: a hub vertex 0 at the origin and five rim vertices on
an (approximate) pentagon; the five faces are `(0, P_i, P_{i+2})`, so every
face's opposite edge is a pentagram chord passing close to the hub. All
points have `z = 0`, which makes every `Solve3x3` system singular and every
`CalcLowestCost` fall back to the edge midpoint (all three candidate costs
are 0). Every midpoint contraction then inverts some surviving face — the
chord behind each spoke lies within half the spoke's length, and each rim
midpoint crosses a neighbouring spoke line — so `AllowedContraction` vetoes
all ten pairs and `Contract_Pair` can only keep rekeying them all to
infinity and fail; `LP_Simplify` breaks out of its loop and emits the five
input faces unchanged. -/

/-- The pentagram-hub vertex positions. -/
def pentaVerts : List V3 :=
  [⟨0, 0, 0⟩, ⟨0, 3, 0⟩, ⟨-3, 1, 0⟩, ⟨-2, -2, 0⟩, ⟨2, -2, 0⟩, ⟨3, 1, 0⟩]

/-- The five hub faces `(0, P_i, P_{i+2})`. -/
def pentaFaces : List Tri := [(0, 1, 3), (0, 2, 4), (0, 3, 5), (0, 4, 1), (0, 5, 2)]

lemma normalize_zpos (c : ℝ) (hc : 0 < c) : Normalize ⟨0, 0, c⟩ = ⟨0, 0, 1⟩ := by
  have hne : (⟨0, 0, c⟩ : V3) ≠ ⟨0, 0, 0⟩ := by
    intro h
    have hz := congrArg V3.z h
    simp only at hz
    exact hc.ne' hz
  have hn : Norm ⟨0, 0, c⟩ = c := by
    simp only [Norm, Norm2, Dot]
    rw [show (0 * 0 + 0 * 0 + c * c : ℝ) = c ^ 2 by ring, Real.sqrt_sq hc.le]
  rw [normalize_eq_smul _ hne, hn]
  simp only [V3.smul, V3.mk.injEq]
  refine ⟨by ring, by ring, ?_⟩
  field_simp

/-- `CalcKp` of a face in the plane `z = 0` with positive orientation is the
quadric of that plane: only the `z*z` entry is 1, everything else 0. -/
lemma calcKp_planar (p1 p2 p3 : V3) (c : ℝ) (hc : 0 < c)
    (hcr : Cross (p2.sub p1) (p3.sub p2) = ⟨0, 0, c⟩) (hz : p1.z = 0) :
    CalcKp p1 p2 p3 = ⟨0, 0, 0, 0, 0, 0, 0, 1, 0, 0⟩ := by
  simp only [CalcKp, PlaneNorm, hcr, normalize_zpos c hc, Dot]
  simp only [Q10.mk.injEq, hz]
  norm_num

lemma pentaQ :
    vertQ pentaVerts pentaFaces 0 = ⟨0, 0, 0, 0, 0, 0, 0, 5, 0, 0⟩ ∧
    vertQ pentaVerts pentaFaces 1 = ⟨0, 0, 0, 0, 0, 0, 0, 2, 0, 0⟩ ∧
    vertQ pentaVerts pentaFaces 2 = ⟨0, 0, 0, 0, 0, 0, 0, 2, 0, 0⟩ ∧
    vertQ pentaVerts pentaFaces 3 = ⟨0, 0, 0, 0, 0, 0, 0, 2, 0, 0⟩ ∧
    vertQ pentaVerts pentaFaces 4 = ⟨0, 0, 0, 0, 0, 0, 0, 2, 0, 0⟩ ∧
    vertQ pentaVerts pentaFaces 5 = ⟨0, 0, 0, 0, 0, 0, 0, 2, 0, 0⟩ := by
  have h1 := calcKp_planar ⟨0, 0, 0⟩ ⟨0, 3, 0⟩ ⟨-2, -2, 0⟩ 6 (by norm_num)
    (by norm_num [Cross, V3.sub]) rfl
  have h2 := calcKp_planar ⟨0, 0, 0⟩ ⟨-3, 1, 0⟩ ⟨2, -2, 0⟩ 4 (by norm_num)
    (by norm_num [Cross, V3.sub]) rfl
  have h3 := calcKp_planar ⟨0, 0, 0⟩ ⟨-2, -2, 0⟩ ⟨3, 1, 0⟩ 4 (by norm_num)
    (by norm_num [Cross, V3.sub]) rfl
  have h4 := calcKp_planar ⟨0, 0, 0⟩ ⟨2, -2, 0⟩ ⟨0, 3, 0⟩ 6 (by norm_num)
    (by norm_num [Cross, V3.sub]) rfl
  have h5 := calcKp_planar ⟨0, 0, 0⟩ ⟨3, 1, 0⟩ ⟨-3, 1, 0⟩ 6 (by norm_num)
    (by norm_num [Cross, V3.sub]) rfl
  refine ⟨?_, ?_, ?_, ?_, ?_, ?_⟩ <;>
    norm_num [vertQ, pentaVerts, pentaFaces, h1, h2, h3, h4, h5, Q10.add, Q10.zero]

set_option maxHeartbeats 2000000 in
/-- The ten pairs `Add_Pairs` creates for the pentagram hub, each with key 0
and the edge midpoint as `vbar`. -/
lemma pentaPairs_eq : mkPairs pentaVerts pentaFaces =
    [⟨0, 1, ⟨0, 3 / 2, 0⟩, some 0⟩,
     ⟨1, 3, ⟨-1, 1 / 2, 0⟩, some 0⟩,
     ⟨3, 0, ⟨-1, -1, 0⟩, some 0⟩,
     ⟨0, 2, ⟨-(3 / 2), 1 / 2, 0⟩, some 0⟩,
     ⟨2, 4, ⟨-(1 / 2), -(1 / 2), 0⟩, some 0⟩,
     ⟨4, 0, ⟨1, -1, 0⟩, some 0⟩,
     ⟨3, 5, ⟨1 / 2, -(1 / 2), 0⟩, some 0⟩,
     ⟨5, 0, ⟨3 / 2, 1 / 2, 0⟩, some 0⟩,
     ⟨4, 1, ⟨1, 1 / 2, 0⟩, some 0⟩,
     ⟨5, 2, ⟨0, 1, 0⟩, some 0⟩] := by
  have hq := pentaQ
  obtain ⟨hq0, hq1, hq2, hq3, hq4, hq5⟩ := hq
  simp only [pentaVerts, pentaFaces] at hq0 hq1 hq2 hq3 hq4 hq5 ⊢
  norm_num [mkPairs, edgePairs, hq0, hq1, hq2, hq3, hq4, hq5,
    CalcLowestCost, Q10.add, Solve3x3, CalcCost, V3.smul, V3.add]

lemma faceFlip_slot1 (verts : List V3) (vbar : V3) (a b : Nat) (f : Tri)
    (hb : ¬ (f.1 = b ∨ f.2.1 = b ∨ f.2.2 = b)) (ha : f.1 = a)
    (h : Dot (PlaneNorm vbar (verts.getD f.2.1 ⟨0, 0, 0⟩) (verts.getD f.2.2 ⟨0, 0, 0⟩))
        (PlaneNorm (verts.getD f.1 ⟨0, 0, 0⟩) (verts.getD f.2.1 ⟨0, 0, 0⟩)
          (verts.getD f.2.2 ⟨0, 0, 0⟩)) < 0) :
    faceFlip verts vbar a b f := by
  simp only [faceFlip]
  rw [if_neg hb, if_pos ha]
  exact h

lemma faceFlip_slot3 (verts : List V3) (vbar : V3) (a b : Nat) (f : Tri)
    (hb : ¬ (f.1 = b ∨ f.2.1 = b ∨ f.2.2 = b))
    (h1 : ¬ f.1 = a) (h2 : ¬ f.2.1 = a) (h3 : f.2.2 = a)
    (h : Dot (PlaneNorm (verts.getD f.1 ⟨0, 0, 0⟩) (verts.getD f.2.1 ⟨0, 0, 0⟩) vbar)
        (PlaneNorm (verts.getD f.1 ⟨0, 0, 0⟩) (verts.getD f.2.1 ⟨0, 0, 0⟩)
          (verts.getD f.2.2 ⟨0, 0, 0⟩)) < 0) :
    faceFlip verts vbar a b f := by
  simp only [faceFlip]
  rw [if_neg hb, if_neg h1, if_neg h2, if_pos h3]
  exact h

/-- Every pentagram-hub pair is vetoed: each midpoint contraction inverts a
surviving face's normal. -/
lemma pentaDisallowed : ∀ p ∈ mkPairs pentaVerts pentaFaces,
    p.key = none ∨ ¬ AllowedContraction pentaVerts pentaFaces p.i p.j p.vbar := by
  rw [pentaPairs_eq]
  intro p hp
  fin_cases hp <;> right <;> intro hall
  · exact (hall (0, 5, 2) (by decide)).1 (faceFlip_slot1 _ _ _ _ _ (by decide) rfl
      (by apply planeNorm_dot_neg; norm_num [pentaVerts, Cross, V3.sub, Dot]))
  · exact (hall (0, 4, 1) (by decide)).1 (faceFlip_slot3 _ _ _ _ _ (by decide)
      (by decide) (by decide) rfl
      (by apply planeNorm_dot_neg; norm_num [pentaVerts, Cross, V3.sub, Dot]))
  · exact (hall (0, 2, 4) (by decide)).2 (faceFlip_slot1 _ _ _ _ _ (by decide) rfl
      (by apply planeNorm_dot_neg; norm_num [pentaVerts, Cross, V3.sub, Dot]))
  · exact (hall (0, 1, 3) (by decide)).1 (faceFlip_slot1 _ _ _ _ _ (by decide) rfl
      (by apply planeNorm_dot_neg; norm_num [pentaVerts, Cross, V3.sub, Dot]))
  · exact (hall (0, 5, 2) (by decide)).1 (faceFlip_slot3 _ _ _ _ _ (by decide)
      (by decide) (by decide) rfl
      (by apply planeNorm_dot_neg; norm_num [pentaVerts, Cross, V3.sub, Dot]))
  · exact (hall (0, 3, 5) (by decide)).2 (faceFlip_slot1 _ _ _ _ _ (by decide) rfl
      (by apply planeNorm_dot_neg; norm_num [pentaVerts, Cross, V3.sub, Dot]))
  · exact (hall (0, 1, 3) (by decide)).1 (faceFlip_slot3 _ _ _ _ _ (by decide)
      (by decide) (by decide) rfl
      (by apply planeNorm_dot_neg; norm_num [pentaVerts, Cross, V3.sub, Dot]))
  · exact (hall (0, 4, 1) (by decide)).2 (faceFlip_slot1 _ _ _ _ _ (by decide) rfl
      (by apply planeNorm_dot_neg; norm_num [pentaVerts, Cross, V3.sub, Dot]))
  · exact (hall (0, 2, 4) (by decide)).1 (faceFlip_slot3 _ _ _ _ _ (by decide)
      (by decide) (by decide) rfl
      (by apply planeNorm_dot_neg; norm_num [pentaVerts, Cross, V3.sub, Dot]))
  · exact (hall (0, 3, 5) (by decide)).1 (faceFlip_slot3 _ _ _ _ _ (by decide)
      (by decide) (by decide) rfl
      (by apply planeNorm_dot_neg; norm_num [pentaVerts, Cross, V3.sub, Dot]))

/-- C7 counterexample: on the pentagram-hub mesh (5 faces, 6 vertices) with
target `k = 1` and no aggregation, every pair is vetoed by the
normal-inversion check, so the first `Contract_Pair` fails, the loop breaks,
and `LP_Simplify` emits all 5 input faces — more than `k`. The contraction
branch (here the identity `merge`) is never taken — the proof rewrites the
failed search first — so the outcome does not depend on the merge semantics
or on the pointer-ordering the C hash tables would impose. -/
theorem simplify_claim_counterexample :
    (simplifyLoop (fun st : List V3 × List Tri × List SimpPair => st.2.1.length) 1
        (fun st => match contractSearch
            (fun p => AllowedContraction st.1 st.2.1 p.i p.j p.vbar)
            (st.2.2.length + 1) st.2.2 with
          | none => none
          | some _ => some st)
        9 (pentaVerts, pentaFaces, mkPairs pentaVerts pentaFaces)).2.1.length = 5
      ∧ ¬ (5 ≤ 1) := by
  have htry : contractSearch
      (fun p => AllowedContraction pentaVerts pentaFaces p.i p.j p.vbar)
      ((mkPairs pentaVerts pentaFaces).length + 1)
      (mkPairs pentaVerts pentaFaces) = none :=
    contractSearch_none _ _ _ pentaDisallowed
  constructor
  · show (simplifyLoop (fun st => st.2.1.length) 1 _ (8 + 1)
        (pentaVerts, pentaFaces, mkPairs pentaVerts pentaFaces)).2.1.length = 5
    simp only [simplifyLoop]
    rw [if_pos (by norm_num [pentaFaces])]
    simp only [htry]
    norm_num [pentaFaces]
  · norm_num

end LibPolyhedra
